import Mathlib

/-!
Verification of the RBXLX-to-Rojo converter against its natural-language
specification.

This file shallowly embeds the four library modules of the converter:

* `utils.py` — `normalize_name` (the name normalizer);
* `roblox_parser.py` — `_extract_property_value` (the property decoder)
  and `parse` (the two-pass graph parser);
* `rojo_project_generator.py` — `generate_project`, `_process_instance`,
  `_create_script_file`, `_create_meta_file` (the project emitter).

Conventions of the embedding:

* Python strings are Lean `String`s; an absent XML text or attribute is
  `Option.none`.
* Python `float` values are modelled as exact rationals `Rat`; the
  decimal-literal parser `pyFloat` mirrors `float(...)` on the plain
  decimal forms that appear in the inputs studied here (binary rounding,
  exponents and inf/nan are not exercised by any theorem below).
* Python exceptions raised by the parser and decoder are modelled as
  `Except PyErr`; `AttributeError` (attribute access on `None`) and
  `ValueError` (failed `int`/`float` conversion) are the two kinds that
  can actually occur in `_extract_property_value`.
* `base64.b64decode(t).decode('utf-8')` — a call into the Python standard
  library — is modelled as an explicit function parameter
  `b64 : String → Option String` (`none` meaning the call raised); every
  theorem about the decoder holds for all such functions.
* Python dicts are association lists with insert-or-replace-in-place
  semantics (`dictInsert`), matching dict insertion-order behaviour; the
  parser's `instances` dict is a partial map `String → Option PInst`
  together with its key insertion order.
* The emitter's filesystem side effects are modelled as a trace of
  operations (`Op`) applied to a filesystem state `FS`.  The only reads
  the source performs on the filesystem are `exists()` checks guarding
  `mkdir`; these are folded into the create-if-absent semantics of
  `Op.mkdirP`, so the trace itself is a pure function of the game data.
-/

/-! ## Python dict and string primitives -/

/-- Insert-or-replace for association lists: replaces the value at an
existing key in place (keeping its position, as Python dict assignment
does) and appends a fresh key at the end. -/
def dictInsert {α β : Type} [DecidableEq α] : List (α × β) → α → β → List (α × β)
  | [], k, v => [(k, v)]
  | (k', v') :: t, k, v =>
    if k' = k then (k, v) :: t else (k', v') :: dictInsert t k v

/-- Characters Python's `str.strip()` removes (ASCII whitespace; the only
whitespace character that can survive `normalize_name`'s replacement step
is the plain space, so the ASCII set is exact there). -/
def isPySpace (c : Char) : Bool :=
  c = ' ' || c = '\t' || c = '\n' || c = '\r' || c = '\x0b' || c = '\x0c'

/-- Python `s.strip(chars)` on a list of characters: drop the matching
characters from both ends. -/
def pyStrip (p : Char → Bool) (l : List Char) : List Char :=
  ((l.dropWhile p).reverse.dropWhile p).reverse

/-- Python `s.startswith(p)`. -/
def pyStartsWith (s p : String) : Bool := p.data.isPrefixOf s.data

/-- Python `s.endswith(p)`. -/
def pyEndsWith (s p : String) : Bool := p.data.isSuffixOf s.data

/-- ASCII lower-casing of one character. -/
def pyLowerChar (c : Char) : Char :=
  if 'A' ≤ c && c ≤ 'Z' then Char.ofNat (c.toNat + 32) else c

/-- Python `s.lower()` (ASCII part; the texts compared to `"true"` in the
source are ASCII). -/
def pyLower (s : String) : String := String.mk (s.data.map pyLowerChar)

/-! ## `utils.normalize_name` -/

/-- The characters of `valid_chars = "-_.() " + ascii_letters + digits`
in `utils.normalize_name`. -/
def pyValidChar (c : Char) : Bool :=
  c = '-' || c = '_' || c = '.' || c = '(' || c = ')' || c = ' ' ||
    ('a' ≤ c && c ≤ 'z') || ('A' ≤ c && c ≤ 'Z') || ('0' ≤ c && c ≤ '9')

/-- Model of `utils.normalize_name`: replace every character outside `valid_chars`
with an underscore, strip leading/trailing underscores, then strip
leading/trailing whitespace, and fall back to `"unnamed"` if the result
is empty. -/
def normalize_name (s : String) : String :=
  let replaced := s.data.map (fun c => if pyValidChar c then c else '_')
  let stripped := pyStrip (fun c => c = '_') replaced
  let stripped2 := pyStrip isPySpace stripped
  if stripped2.isEmpty then "unnamed" else String.mk stripped2

/-! ## Python `int(...)` and `float(...)` on strings -/

/-- Numeric value of an ASCII digit. -/
def digitVal (c : Char) : Nat := c.toNat - '0'.toNat

/-- True iff every character of the list is an ASCII digit. -/
def allDigits (l : List Char) : Bool := l.all (fun c => '0' ≤ c && c ≤ '9')

/-- Value of a digit string read in base 10. -/
def digitsVal (l : List Char) : Nat := l.foldl (fun a c => 10 * a + digitVal c) 0

/-- Python `int(s)` for a string: optional surrounding whitespace,
optional sign, then a nonempty run of digits; `none` models `ValueError`.
(Underscore digit separators, accepted by Python, are not modelled; no
theorem below exercises them.) -/
def pyInt (s : String) : Option Int :=
  let t := pyStrip isPySpace s.data
  let (sign, ds) : Int × List Char :=
    match t with
    | '-' :: r => (-1, r)
    | '+' :: r => (1, r)
    | r => (1, r)
  if ds ≠ [] && allDigits ds then some (sign * (digitsVal ds : Int)) else none

/-- Python `float(s)` for plain decimal literals: optional surrounding
whitespace, optional sign, digits with an optional fractional part
(`"12"`, `"12."`, `"12.5"`, `".5"`); the value is kept as an exact
rational.  `none` models `ValueError`.  (Exponents, `inf`/`nan` and
binary rounding are not exercised by any theorem below.) -/
def pyFloat (s : String) : Option Rat :=
  let t := pyStrip isPySpace s.data
  let (sign, ds) : Int × List Char :=
    match t with
    | '-' :: r => (-1, r)
    | '+' :: r => (1, r)
    | r => (1, r)
  match ds.splitOn '.' with
  | [ip] =>
    if ip ≠ [] && allDigits ip then some (mkRat (sign * (digitsVal ip : Int)) 1)
    else none
  | [ip, fp] =>
    if (ip ≠ [] || fp ≠ []) && allDigits ip && allDigits fp then
      some (mkRat (sign * ((digitsVal ip * 10 ^ fp.length + digitsVal fp : Nat) : Int))
        (10 ^ fp.length))
    else none
  | _ => none

/-! ## The property decoder (`roblox_parser._extract_property_value`) -/

/-- The exception kinds `_extract_property_value` can raise:
attribute access on `None` and failed numeric conversion. -/
inductive PyErr where
  | attributeError
  | valueError
deriving DecidableEq, Repr

deriving instance DecidableEq for Except

/-- Python `int(text or 0)` for an optional element text. -/
def pyIntOfText (t : Option String) : Except PyErr Int :=
  match t with
  | none => .ok 0
  | some s =>
    if s = "" then .ok 0
    else match pyInt s with
      | some n => .ok n
      | none => .error .valueError

/-- Python `float(text or 0)` for an optional element text. -/
def pyFloatOfText (t : Option String) : Except PyErr Rat :=
  match t with
  | none => .ok 0
  | some s =>
    if s = "" then .ok 0
    else match pyFloat s with
      | some q => .ok q
      | none => .error .valueError

/-- Python `text or d` for an optional element text (both `None` and the
empty string are falsy). -/
def pyOr (t : Option String) (d : String) : String :=
  match t with
  | none => d
  | some s => if s = "" then d else s

/-- An XML property element: tag, `name` attribute, text content, and
sub-elements (which are themselves property-shaped elements carrying a
tag and a text). -/
inductive PropElem where
  | mk (tag : String) (nameAttr : Option String) (text : Option String)
      (children : List PropElem)

mutual

def PropElem.deq : (a b : PropElem) → Decidable (a = b)
  | .mk t1 n1 x1 c1, .mk t2 n2 x2 c2 =>
    if h1 : t1 = t2 then
      if h2 : n1 = n2 then
        if h3 : x1 = x2 then
          match PropElem.deqList c1 c2 with
          | isTrue h4 => isTrue (by rw [h1, h2, h3, h4])
          | isFalse h4 => isFalse (by intro h; injection h; contradiction)
        else isFalse (by intro h; injection h; contradiction)
      else isFalse (by intro h; injection h; contradiction)
    else isFalse (by intro h; injection h; contradiction)

def PropElem.deqList : (a b : List PropElem) → Decidable (a = b)
  | [], [] => isTrue rfl
  | [], _ :: _ => isFalse (by intro h; cases h)
  | _ :: _, [] => isFalse (by intro h; cases h)
  | x :: xs, y :: ys =>
    match PropElem.deq x y, PropElem.deqList xs ys with
    | isTrue h1, isTrue h2 => isTrue (by rw [h1, h2])
    | isFalse h1, _ => isFalse (by intro h; injection h; contradiction)
    | _, isFalse h2 => isFalse (by intro h; injection h; contradiction)

end

instance : DecidableEq PropElem := PropElem.deq

def PropElem.tag : PropElem → String
  | .mk t _ _ _ => t

def PropElem.nameAttr : PropElem → Option String
  | .mk _ n _ _ => n

def PropElem.text : PropElem → Option String
  | .mk _ _ t _ => t

def PropElem.children : PropElem → List PropElem
  | .mk _ _ _ c => c

/-- lxml `elem.find(tag)`: first direct child with the given tag. -/
def PropElem.find (e : PropElem) (t : String) : Option PropElem :=
  e.children.find? (fun c => c.tag = t)

/-- A primitive value inside a decoded composite (the dict values the
decoder produces are floats, except `PhysicalProperties`' boolean). -/
inductive Prim where
  | num (q : Rat)
  | bool (b : Bool)
deriving DecidableEq

/-- A decoded property value, as produced by `_extract_property_value`:
a Python `str`, `int`, `float`, `bool`, a dict of primitives, or — for
unknown tags — the property element itself serialized back to markup
(`etree.tostring`), represented here by the element it serializes. -/
inductive Value where
  | str (s : String)
  | int (n : Int)
  | float (q : Rat)
  | bool (b : Bool)
  | dict (d : List (String × Prim))
  | rawXml (e : PropElem)
deriving DecidableEq

/-- Fold for the `CFrame`/`CoordinateFrame` branch: iterate all direct
sub-elements, keying each child's tag to its text parsed as a float. -/
def cframeFold : List PropElem → List (String × Prim) → Except PyErr (List (String × Prim))
  | [], acc => .ok acc
  | c :: t, acc => do
    let q ← pyFloatOfText c.text
    cframeFold t (dictInsert acc c.tag (.num q))

/-- Model of `roblox_parser._extract_property_value`: decode one property element
according to its tag.  `b64` models `base64.b64decode(t).decode('utf-8')`
(`none` = the call raised). -/
def extract (b64 : String → Option String) (e : PropElem) : Except PyErr Value :=
  if e.tag = "string" then .ok (.str (pyOr e.text ""))
  else if e.tag = "int" ∨ e.tag = "int64" then do
    let n ← pyIntOfText e.text
    .ok (.int n)
  else if e.tag = "float" ∨ e.tag = "double" then do
    let q ← pyFloatOfText e.text
    .ok (.float q)
  else if e.tag = "bool" then
    match e.text with
    | none => .error .attributeError
    | some s => .ok (.bool (pyLower s == "true"))
  else if e.tag = "Content" then .ok (.str (pyOr e.text ""))
  else if e.tag = "BinaryString" ∨ e.tag = "ProtectedString" then
    match e.text with
    | none => .ok (.str "")
    | some s =>
      if s = "" then .ok (.str "")
      else .ok (.str ((b64 s).getD s))
  else if e.tag = "UniqueId" then .ok (.str (pyOr e.text ""))
  else if e.tag = "SecurityCapabilities" then .ok (.str (pyOr e.text "0"))
  else if e.tag = "Ref" then .ok (.str (pyOr e.text "null"))
  else if e.tag = "token" then do
    let n ← pyIntOfText e.text
    .ok (.int n)
  else if e.tag = "Color3" ∨ e.tag = "Color3uint8" then
    match e.find "R", e.find "G", e.find "B" with
    | some r, some g, some b => do
      let qr ← pyFloatOfText r.text
      let qg ← pyFloatOfText g.text
      let qb ← pyFloatOfText b.text
      .ok (.dict [("R", .num qr), ("G", .num qg), ("B", .num qb)])
    | _, _, _ => .ok (.dict [("R", .num 0), ("G", .num 0), ("B", .num 0)])
  else if e.tag = "Vector2" ∨ e.tag = "Vector3" then do
    let x := e.find "X"
    let y := e.find "Y"
    let z := if e.tag = "Vector3" then e.find "Z" else none
    let qx ← match x with
      | some xe => pyFloatOfText xe.text
      | none => .ok 0
    let qy ← match y with
      | some ye => pyFloatOfText ye.text
      | none => .ok 0
    match z with
    | some ze => do
      let qz ← pyFloatOfText ze.text
      .ok (.dict [("X", .num qx), ("Y", .num qy), ("Z", .num qz)])
    | none => .ok (.dict [("X", .num qx), ("Y", .num qy)])
  else if e.tag = "CFrame" ∨ e.tag = "CoordinateFrame" then do
    let d ← cframeFold e.children []
    .ok (.dict d)
  else if e.tag = "PhysicalProperties" then
    match e.find "CustomPhysics" with
    | none => .error .attributeError
    | some cp =>
      match cp.text with
      | none => .error .attributeError
      | some s => .ok (.dict [("CustomPhysics", .bool (pyLower s == "true"))])
  else .ok (.rawXml e)

/-! ## The graph parser (`roblox_parser.RobloxParser.parse`) -/

/-- A node-declaring `Item` element: `referent` attribute, `class`
attribute, the property elements under its `Properties` child (an absent
`Properties` element is the empty list, which the source treats
identically), and its direct `Item` children. -/
inductive Item where
  | mk (referent : Option String) (classAttr : Option String)
      (props : List PropElem) (children : List Item)

def Item.referent : Item → Option String
  | .mk r _ _ _ => r

def Item.classAttr : Item → Option String
  | .mk _ c _ _ => c

def Item.props : Item → List PropElem
  | .mk _ _ p _ => p

def Item.children : Item → List Item
  | .mk _ _ _ c => c

mutual

/-- Document-order (`findall('.//Item')`) listing of an element and all
its descendants: the element first, then its subtrees in order. -/
def Item.preorder : Item → List Item
  | .mk r c p ch => .mk r c p ch :: Item.preorderL ch

def Item.preorderL : List Item → List Item
  | [] => []
  | x :: t => x.preorder ++ Item.preorderL t

end

mutual

/-- End-event (`iterparse(events=('end',))`) listing of an element and
all its descendants: subtrees first, then the element. -/
def Item.postorder : Item → List Item
  | .mk r c p ch => Item.postorderL ch ++ [.mk r c p ch]

def Item.postorderL : List Item → List Item
  | [] => []
  | x :: t => x.postorder ++ Item.postorderL t

end

/-- One entry of the parser's `instances` dict. -/
structure PInst where
  className : String
  referent : String
  properties : List (Option String × Value)
  children : List String
  parent : Option String
deriving DecidableEq

/-- Parser state: the `instances` dict (partial map plus key insertion
order) and the `child_instances` set. -/
structure PSt where
  instances : String → Option PInst
  order : List String
  childSet : String → Bool

/-- Pass 1 registration: `instances[ref_id] = fresh record` for an
element carrying both attributes (replacing any previous record for the
same referent, keeping its dict position). -/
def PSt.register (st : PSt) (r c : String) : PSt :=
  { st with
    instances := fun x => if x = r then some ⟨c, r, [], [], none⟩ else st.instances x
    order := if (st.instances r).isSome then st.order else st.order ++ [r] }

/-- Model of `instance['properties'][prop_name] = value`. -/
def PSt.addProp (st : PSt) (r : String) (k : Option String) (v : Value) : PSt :=
  { st with
    instances := fun x =>
      if x = r then (st.instances r).map (fun i => { i with properties := dictInsert i.properties k v })
      else st.instances x }

/-- Model of `instance['children'].append(child_ref)`. -/
def PSt.appendChild (st : PSt) (r c : String) : PSt :=
  { st with
    instances := fun x =>
      if x = r then (st.instances r).map (fun i => { i with children := i.children ++ [c] })
      else st.instances x }

/-- Model of `self.instances[child_ref]['parent'] = ref_id`. -/
def PSt.setParent (st : PSt) (c r : String) : PSt :=
  { st with
    instances := fun x =>
      if x = c then (st.instances c).map (fun i => { i with parent := some r })
      else st.instances x }

/-- Model of `child_instances.add(child_ref)`. -/
def PSt.addChildSet (st : PSt) (c : String) : PSt :=
  { st with childSet := fun x => if x = c then true else st.childSet x }

/-- Pass 1: stream the document in end order and register every element
carrying both a referent and a class. -/
def pass1 : List Item → PSt → PSt
  | [], st => st
  | it :: t, st =>
    match it.referent, it.classAttr with
    | some r, some c => pass1 t (st.register r c)
    | _, _ => pass1 t st

/-- Pass 2 property loop: decode each property element and store it under
its `name` attribute. -/
def extractProps (b64 : String → Option String) (r : String) :
    List PropElem → PSt → Except PyErr PSt
  | [], st => .ok st
  | p :: t, st => do
    let v ← extract b64 p
    extractProps b64 r t (st.addProp r p.nameAttr v)

/-- Pass 2 hierarchy loop over the direct `Item` children of the current
element: append each registered child's id, set its parent
back-reference, and mark it as a child. -/
def linkChildren (r : String) : List Item → PSt → PSt
  | [], st => st
  | ch :: t, st =>
    match ch.referent with
    | some c =>
      if (st.instances c).isSome then
        linkChildren r t (((st.appendChild r c).setParent c r).addChildSet c)
      else linkChildren r t st
    | none => linkChildren r t st

/-- Pass 2: walk every `Item` element in document order; elements whose
referent was not registered in pass 1 are skipped. -/
def pass2 (b64 : String → Option String) : List Item → PSt → Except PyErr PSt
  | [], st => .ok st
  | it :: t, st =>
    match it.referent with
    | none => pass2 b64 t st
    | some r =>
      if (st.instances r).isSome then do
        let st' ← extractProps b64 r it.props st
        pass2 b64 t (linkChildren r it.children st')
      else pass2 b64 t st

/-- Root determination: iterate the `instances` dict in insertion order
and keep ids never marked as children whose parent is unset. -/
def computeRoots (st : PSt) : List String :=
  st.order.filter (fun r =>
    !st.childSet r &&
      (match st.instances r with
       | some i => i.parent.isNone
       | none => false))

/-- The parse result (`game_data` dict): name, the instances map (with
its key insertion order), and the root-id list. -/
structure PGameData where
  name : Value
  instances : String → Option PInst
  order : List String
  rootInstances : List String

/-- Model of `RobloxParser._get_game_name`: first DataModel root with a `Name`
property, else first Workspace instance with a `Name` property, else the
input file's stem. -/
def getGameName (st : PSt) (roots : List String) (stem : String) : Value :=
  match roots.findSome? (fun r =>
    match st.instances r with
    | some i =>
      if i.className = "DataModel" then i.properties.lookup (some "Name") else none
    | none => none) with
  | some v => v
  | none =>
    match st.order.findSome? (fun r =>
      match st.instances r with
      | some i =>
        if i.className = "Workspace" then i.properties.lookup (some "Name") else none
      | none => none) with
    | some v => v
    | none => .str stem

/-- Model of `RobloxParser.parse`: two passes over the document, then root and
name determination.  `stem` is the input file's base name without
extension; a decode exception aborts the parse with that error. -/
def parse (b64 : String → Option String) (stem : String) (doc : List Item) :
    Except PyErr PGameData :=
  let st1 := pass1 (Item.postorderL doc) ⟨fun _ => none, [], fun _ => false⟩
  match pass2 b64 (Item.preorderL doc) st1 with
  | .error e => .error e
  | .ok st2 =>
    let roots := computeRoots st2
    .ok ⟨getGameName st2 roots stem, st2.instances, st2.order, roots⟩

/-! ## The project emitter (`rojo_project_generator.RojoProjectGenerator`) -/

/-- One entry of the emitter's `instances` map.  Property names are
strings here, as in the spec's data model (a `None` property name, which
the parser can in principle produce, would crash the emitter's filter in
the source; no theorem below exercises that case). -/
structure EInst where
  className : String
  properties : List (String × Value)
  children : List String
deriving DecidableEq

/-- The emitter's input (`game_data` as consumed by the generator). -/
structure GameData where
  name : String
  instances : List (String × EInst)
  rootInstances : List String
deriving DecidableEq

/-- Model of `instance['properties'].get('Name', instance_class)`.  A non-string
`Name` value would raise `TypeError` inside `normalize_name` in the
source; it is mapped to the class-name default here and is not exercised
by any theorem below. -/
def EInst.displayName (i : EInst) : String :=
  match i.properties.lookup "Name" with
  | some (.str s) => s
  | some _ => i.className
  | none => i.className

/-- A path, as its list of components (`pathlib.Path.parts`), rooted at
the output directory's own parts. -/
abbrev FilePath' := List String

/-- A flattened metadata value as written into a `.meta.json` sidecar. -/
inductive MetaVal where
  | prim (v : Value)
  | list (xs : List Prim)
  | dict (d : List (String × Prim))
deriving DecidableEq

/-- The decoded content of an emitted file.  `json.dump` with a fixed
indent is deterministic and injective on these shapes, so byte equality
of emitted files coincides with equality of this content. -/
inductive Content where
  | projectJson (name : String)
  | script (source : Value)
  | meta (className : String) (props : List (String × MetaVal))
deriving DecidableEq

/-- A filesystem entry. -/
inductive Entry where
  | dir
  | file (c : Content)
deriving DecidableEq

/-- Filesystem state: a partial map from paths to entries. -/
abbrev FS := FilePath' → Option Entry

/-- A filesystem operation performed by the emitter:
`mkdirP p` is `Path(p).mkdir(parents=True)` guarded by (or passing)
`exist_ok`, i.e. create-if-absent for `p` and every ancestor;
`write p c` is an unconditional `open(p, 'w')` overwrite. -/
inductive Op where
  | mkdirP (p : FilePath')
  | write (p : FilePath') (c : Content)
deriving DecidableEq

/-- Apply one operation to the filesystem. -/
def applyOp (fs : FS) : Op → FS
  | .mkdirP p => fun q =>
    if q.isPrefixOf p then
      match fs q with
      | none => some .dir
      | some e => some e
    else fs q
  | .write p c => fun q => if q = p then some (.file c) else fs q

/-- Apply a trace of operations in order. -/
def applyOps (ops : List Op) (fs : FS) : FS := ops.foldl applyOp fs

/-- The `important_properties` allow-list of `_create_meta_file`. -/
def importantProperties : List String :=
  ["Anchored", "CanCollide", "CastShadow", "CollisionGroupId", "Massless",
   "Material", "Transparency", "Reflectance", "Locked",
   "Size", "CFrame", "Position", "Rotation", "RotVelocity", "Velocity",
   "BackgroundColor3", "BackgroundTransparency", "BorderColor3", "BorderSizePixel",
   "TextColor3", "Font", "TextSize", "Text", "TextWrapped", "TextXAlignment", "TextYAlignment",
   "Image", "ImageColor3", "ImageTransparency", "ScaleType",
   "Enabled", "Visible", "Value", "MaxValue", "MinValue", "Sound", "Volume", "Pitch",
   "CanBeDropped", "RequiresHandle", "Looped", "Playing", "TimePosition",
   "Ambient", "Brightness", "ColorShift_Bottom", "ColorShift_Top", "GlobalShadows",
   "OutdoorAmbient", "TimeOfDay", "FogColor", "FogEnd", "FogStart",
   "MeshId", "TextureId", "SoundId", "CollisionGroup", "AttachmentPoint", "PrimaryPart"]

/-- Python `len` of a dict represented as an association list (number of
distinct keys). -/
def pyDictLen (d : List (String × Prim)) : Nat := (d.map Prod.fst).eraseDups.length

/-- The flattening `_create_meta_file` applies to one (already filtered) property
value: colors to `[R,G,B]`, 3-vectors to `[X,Y,Z]`, 2-vectors to
`[X,Y]`, the (unreachable, see `C1`) transform branch to a 12-element
list, other dicts to a dict with underscore-prefixed keys stripped, and
simple values unchanged.  The source's `not callable(v)` test is always
true for decoded values, and the `try`/`except` around the dict
comprehension cannot fire, so neither appears here. -/
def metaVal (v : Value) : MetaVal :=
  match v with
  | .dict d =>
    if (d.lookup "R").isSome ∧ (d.lookup "G").isSome ∧ (d.lookup "B").isSome then
      .list [(d.lookup "R").getD (.num 0), (d.lookup "G").getD (.num 0),
             (d.lookup "B").getD (.num 0)]
    else if (d.lookup "X").isSome ∧ (d.lookup "Y").isSome ∧ (d.lookup "Z").isSome then
      .list [(d.lookup "X").getD (.num 0), (d.lookup "Y").getD (.num 0),
             (d.lookup "Z").getD (.num 0)]
    else if (d.lookup "X").isSome ∧ (d.lookup "Y").isSome ∧ pyDictLen d = 2 then
      .list [(d.lookup "X").getD (.num 0), (d.lookup "Y").getD (.num 0)]
    else if (d.lookup "X").isSome ∧ (d.lookup "Y").isSome ∧ (d.lookup "Z").isSome ∧
        (d.lookup "R00").isSome then
      .list [(d.lookup "X").getD (.num 0), (d.lookup "Y").getD (.num 0),
             (d.lookup "Z").getD (.num 0),
             (d.lookup "R00").getD (.num 1), (d.lookup "R01").getD (.num 0),
             (d.lookup "R02").getD (.num 0),
             (d.lookup "R10").getD (.num 0), (d.lookup "R11").getD (.num 1),
             (d.lookup "R12").getD (.num 0),
             (d.lookup "R20").getD (.num 0), (d.lookup "R21").getD (.num 0),
             (d.lookup "R22").getD (.num 1)]
    else
      .dict (d.filter (fun kv => !pyStartsWith kv.1 "_"))
  | v => .prim v

/-- The property filter of `_create_meta_file`: keep a property unless its
name is `Name`, starts with an underscore, or is neither in the allow
list nor suffixed `Color3`/`Size`/`Offset`/`Position`. -/
def metaKeep (k : String) : Bool :=
  k ≠ "Name" && !pyStartsWith k "_" &&
    (k ∈ importantProperties || pyEndsWith k "Color3" || pyEndsWith k "Size" ||
     pyEndsWith k "Offset" || pyEndsWith k "Position")

/-- The filtered, flattened property map of a metadata sidecar. -/
def metaProps (props : List (String × Value)) : List (String × MetaVal) :=
  props.foldl (fun acc kv =>
    if metaKeep kv.1 then dictInsert acc kv.1 (metaVal kv.2) else acc) []

/-- Model of `_create_meta_file`: write the `.meta.json` sidecar into `path`
unless the class is `Folder` and the filtered property map is empty. -/
def metaOps (inst : EInst) (path : FilePath') : List Op :=
  if inst.className ≠ "Folder" ∨ metaProps inst.properties ≠ [] then
    [.write (path ++ [normalize_name inst.displayName ++ ".meta.json"])
       (.meta inst.className (metaProps inst.properties))]
  else []

/-- The `script_extensions` map. -/
def scriptExtension (c : String) : String :=
  if c = "Script" then ".server.lua"
  else if c = "LocalScript" then ".client.lua"
  else if c = "ModuleScript" then ".lua"
  else ".lua"

/-- The three script-like classes. -/
def scriptClasses : List String := ["Script", "LocalScript", "ModuleScript"]

/-- The body of `_create_script_file`, parameterized by the recursive
placement call it makes on the script's children (`_process_instance`
with the sibling directory as parent and `is_root=False`): write the
script file; if the node has children, write its metadata sidecar next to
the file (into `script_path.parent`), then create a same-named sibling
directory and recurse each child into it as a non-root call. -/
def scriptFileOps (gd : GameData) (recurse : EInst → FilePath' → Bool → List Op)
    (inst : EInst) (parentPath : FilePath') : List Op :=
  let nm := inst.displayName
  let fileName := normalize_name nm ++ scriptExtension inst.className
  [Op.write (parentPath ++ [fileName])
     (.script ((inst.properties.lookup "Source").getD (.str "")))] ++
    (if inst.children ≠ [] then
      metaOps inst parentPath ++
        inst.children.flatMap (fun cr =>
          match gd.instances.lookup cr with
          | some c =>
            Op.mkdirP (parentPath ++ [normalize_name nm]) ::
              recurse c (parentPath ++ [normalize_name nm]) false
          | none => [])
    else [])

/-- Model of `_process_instance`: emit a script-like node as a file (via
`_create_script_file`, i.e. `scriptFileOps`), otherwise a directory
(possibly collapsed onto the parent for root services) plus a metadata
sidecar, recursing into children.  `fuel` bounds the recursion depth
(the source recurses without bound; every theorem quantifies over
`fuel`). -/
def processInstance (gd : GameData) : Nat → EInst → FilePath' → Bool → List Op
  | 0, _, _, _ => []
  | fuel + 1, inst, parentPath, isRoot =>
    if inst.className ∈ scriptClasses then
      scriptFileOps gd (processInstance gd fuel) inst parentPath
    else
      let dirName := normalize_name inst.displayName
      let ipath := parentPath ++ [dirName]
      if inst.children ≠ [] ∨ isRoot ∨ inst.properties ≠ [] then
        let collapse := isRoot ∧ inst.className ∈ parentPath
        let path := if collapse then parentPath else ipath
        (if collapse then [] else [Op.mkdirP ipath]) ++
          metaOps inst path ++
          inst.children.flatMap (fun cr =>
            match gd.instances.lookup cr with
            | some c => processInstance gd fuel c path false
            | none => [])
      else []

/-- Model of `_create_script_file` at recursion budget `fuel` for its children. -/
def createScriptFile (gd : GameData) (fuel : Nat) (inst : EInst)
    (parentPath : FilePath') : List Op :=
  scriptFileOps gd (processInstance gd fuel) inst parentPath

/-- The `$path` entries of the generated `default.project.json`, in dict
insertion order (including the recursion into `StarterPlayer`'s two
nested containers), as created by `_create_standard_directories`. -/
def standardPaths : List FilePath' :=
  [["src", "ReplicatedStorage"], ["src", "ServerScriptService"], ["src", "ServerStorage"],
   ["src", "StarterGui"], ["src", "StarterPack"],
   ["src", "StarterPlayer", "StarterPlayerScripts"],
   ["src", "StarterPlayer", "StarterCharacterScripts"],
   ["src", "Workspace"], ["src", "Lighting"], ["src", "SoundService"],
   ["src", "ReplicatedFirst"], ["src", "Players"], ["src", "Chat"],
   ["src", "LocalizationService"], ["src", "TestService"], ["src", "MarketplaceService"],
   ["src", "HttpService"]]

/-- The root-instance walk of `generate_project`: every `Workspace` root
has its directory and sidecar created immediately but its children
deferred (the last such root wins the deferred slot); every other root is
processed by the general placement rule as a root call. -/
def rootOps (gd : GameData) (out : FilePath') (fuel : Nat) :
    List String → List Op × Option EInst → List Op × Option EInst
  | [], acc => acc
  | r :: t, acc =>
    match gd.instances.lookup r with
    | none => rootOps gd out fuel t acc
    | some inst =>
      if inst.className = "Workspace" then
        rootOps gd out fuel t
          (acc.1 ++ [Op.mkdirP (out ++ ["src", "Workspace"])] ++
             metaOps inst (out ++ ["src", "Workspace"]), some inst)
      else
        rootOps gd out fuel t
          (acc.1 ++ processInstance gd fuel inst (out ++ ["src"]) true, acc.2)

/-- The deferred second pass over the captured Workspace's children. -/
def workspaceChildOps (gd : GameData) (out : FilePath') (fuel : Nat) :
    Option EInst → List Op
  | none => []
  | some ws =>
    ws.children.flatMap (fun cr =>
      match gd.instances.lookup cr with
      | some c => processInstance gd fuel c (out ++ ["src", "Workspace"]) false
      | none => [])

/-- The full operation trace of `generate_project`: create `src`, write
the manifest, create the standard container directories, walk the roots,
then the deferred Workspace children. -/
def emitOps (fuel : Nat) (gd : GameData) (out : FilePath') : List Op :=
  [Op.mkdirP (out ++ ["src"]), Op.write (out ++ ["default.project.json"]) (.projectJson gd.name)] ++
    standardPaths.map (fun p => Op.mkdirP (out ++ p)) ++
    (let acc := rootOps gd out fuel gd.rootInstances ([], none)
     acc.1 ++ workspaceChildOps gd out fuel acc.2)

/-- Model of `generate_project` as a filesystem transformer: its operation trace
applied to the current filesystem state. -/
def generate_project (fuel : Nat) (gd : GameData) (out : FilePath') (fs : FS) : FS :=
  applyOps (emitOps fuel gd out) fs

/-! ## Shared concrete helpers for the theorems -/

/-- A base64 decoder that always fails, used to instantiate the `b64`
parameter in closed statements. -/
def b64none : String → Option String := fun _ => none

/-! ## C5 — boolean property decoding -/

/-- C5, counterexample: the claim says the decoder compares the *trimmed*
text case-insensitively with `"true"`, so `" true"` would decode to
`true`; the source lower-cases but never trims, and `" true"` decodes to
`false`. -/
theorem C5_counterexample :
    extract b64none (.mk "bool" (some "Anchored") (some " true") []) = .ok (.bool false) ∧
      extract b64none (.mk "bool" (some "Anchored") (some " true") []) ≠ .ok (.bool true) := by
  decide

/-- C5, amended: decoding a property element tagged `bool` performs a
case-insensitive comparison of the raw, untrimmed text against `"true"`:
`"True"`, `"TRUE"`, `"true"` all yield `true`, while any text whose
lower-casing differs from `"true"` — including whitespace-surrounded
variants such as `" true"` — yields `false`. -/
theorem C5_amended :
    (∀ b64 nm ch, extract b64 (.mk "bool" nm (some "True") ch) = .ok (.bool true)) ∧
    (∀ b64 nm ch, extract b64 (.mk "bool" nm (some "TRUE") ch) = .ok (.bool true)) ∧
    (∀ b64 nm ch, extract b64 (.mk "bool" nm (some "true") ch) = .ok (.bool true)) ∧
    (∀ b64 nm ch s, pyLower s ≠ "true" →
      extract b64 (.mk "bool" nm (some s) ch) = .ok (.bool false)) := by
  refine ⟨fun b64 nm ch => rfl, fun b64 nm ch => rfl, fun b64 nm ch => rfl,
    fun b64 nm ch s hs => ?_⟩
  show Except.ok (Value.bool (pyLower s == "true")) = .ok (.bool false)
  rw [show (pyLower s == "true") = false from beq_false_of_ne hs]

/-- C5, witness for the amended statement's hypothesis, at `s = "tru e"`. -/
theorem C5_amended_witness :
    pyLower "tru e" ≠ "true" ∧
      extract b64none (.mk "bool" (some "P") (some "tru e") []) = .ok (.bool false) :=
  ⟨by decide, C5_amended.2.2.2 b64none (some "P") [] "tru e" (by decide)⟩

/-! ## C6 — 3-component color decoding -/

/-- C6, counterexample: the claim says each individually missing color
sub-element defaults to 0 while present ones keep their values, so a
`Color3` with `G=3`, `B=7` and no `R` would decode to `(0,3,7)`; the
source checks all three at once and returns the all-zero record,
discarding the present components. -/
theorem C6_counterexample :
    extract b64none
        (.mk "Color3" (some "C") none
          [.mk "G" none (some "3") [], .mk "B" none (some "7") []]) =
      .ok (.dict [("R", .num 0), ("G", .num 0), ("B", .num 0)]) ∧
    extract b64none
        (.mk "Color3" (some "C") none
          [.mk "G" none (some "3") [], .mk "B" none (some "7") []]) ≠
      .ok (.dict [("R", .num 0), ("G", .num 3), ("B", .num 7)]) := by
  decide

/-- C6, amended: a 3-component color property decodes to the 3-field
record of its `R`, `G`, `B` child elements parsed as floats only when
all three sub-elements are present; if any one of them is missing, all
three fields default to 0 (present components are discarded rather than
kept). -/
theorem C6_amended :
    (∀ b64 nm rest r g b qr qg qb,
      pyFloatOfText r.text = .ok qr → pyFloatOfText g.text = .ok qg →
      pyFloatOfText b.text = .ok qb →
      r.tag = "R" → g.tag = "G" → b.tag = "B" →
      (.mk "Color3" nm none (r :: g :: b :: rest) : PropElem).find "R" = some r →
      (.mk "Color3" nm none (r :: g :: b :: rest) : PropElem).find "G" = some g →
      (.mk "Color3" nm none (r :: g :: b :: rest) : PropElem).find "B" = some b →
      extract b64 (.mk "Color3" nm none (r :: g :: b :: rest)) =
        .ok (.dict [("R", .num qr), ("G", .num qg), ("B", .num qb)])) ∧
    (∀ b64 nm txt ch,
      ((.mk "Color3" nm txt ch : PropElem).find "R" = none ∨
       (.mk "Color3" nm txt ch : PropElem).find "G" = none ∨
       (.mk "Color3" nm txt ch : PropElem).find "B" = none) →
      extract b64 (.mk "Color3" nm txt ch) =
        .ok (.dict [("R", .num 0), ("G", .num 0), ("B", .num 0)])) := by
  constructor
  · intro b64 nm rest r g b qr qg qb hr hg hb _ _ _ hfr hfg hfb
    show extract b64 (.mk "Color3" nm none (r :: g :: b :: rest)) = _
    unfold extract
    simp only [PropElem.tag, reduceIte, hfr, hfg, hfb, hr, hg, hb]
    rfl
  · intro b64 nm txt ch h
    unfold extract
    simp only [PropElem.tag, reduceIte]
    rcases h with h | h | h <;> rw [h] <;>
      cases (PropElem.mk "Color3" nm txt ch).find "G" <;>
      cases (PropElem.mk "Color3" nm txt ch).find "B" <;>
      cases (PropElem.mk "Color3" nm txt ch).find "R" <;>
      rfl

/-- C6, witness for the amended statement, at a color with all three
sub-elements present (`R=1`, `G=3`, `B=7`) and one missing `R`. -/
theorem C6_amended_witness :
    extract b64none
        (.mk "Color3" (some "C") none
          [.mk "R" none (some "1") [], .mk "G" none (some "3") [], .mk "B" none (some "7") []]) =
      .ok (.dict [("R", .num 1), ("G", .num 3), ("B", .num 7)]) ∧
    extract b64none
        (.mk "Color3" (some "C") none
          [.mk "G" none (some "3") [], .mk "B" none (some "7") []]) =
      .ok (.dict [("R", .num 0), ("G", .num 0), ("B", .num 0)]) :=
  ⟨C6_amended.1 b64none (some "C") [] (.mk "R" none (some "1") [])
      (.mk "G" none (some "3") []) (.mk "B" none (some "7") []) 1 3 7
      (by decide) (by decide) (by decide) rfl rfl rfl (by decide) (by decide) (by decide),
    C6_amended.2 b64none (some "C") none
      [.mk "G" none (some "3") [], .mk "B" none (some "7") []] (Or.inl (by decide))⟩

/-! ## C9 — empty boolean property aborts the parse -/

/-- C9: decoding a `bool` property element with absent text raises
(`None.lower()` is an `AttributeError`) instead of returning a default
boolean, and a document containing such a property on a registered node
aborts the entire parse with that error. -/
theorem C9_empty_bool_aborts_parse :
    (∀ b64 nm ch, extract b64 (.mk "bool" nm none ch) = .error .attributeError) ∧
    parse b64none "place"
        [.mk (some "A") (some "Part") [.mk "bool" (some "Anchored") none []] []] =
      .error .attributeError :=
  ⟨fun _ _ _ => rfl, rfl⟩

/-! ## C2 — decode-error recovery -/

/-- C2, counterexample: the claim says every decode error — including a
missing expected sub-element such as the `CustomPhysics` sub-element of
the `PhysicalProperties` composite — is recovered locally and the decoder
never raises; the source dereferences the missing sub-element and raises
an `AttributeError`. -/
theorem C2_counterexample :
    extract b64none (.mk "PhysicalProperties" (some "CustomPhysicalProperties") none []) =
      .error .attributeError := by
  decide

/-- C2, amended: malformed base64 in the binary/protected string variants
is recovered locally — the decoder falls back to the raw text unmodified
and never raises for those tags, for every base64 decoder behaviour; but
a missing expected sub-element is not recovered: a `PhysicalProperties`
element without its `CustomPhysics` sub-element raises, and a document
containing such a property on a registered node aborts the whole parse. -/
theorem C2_amended :
    (∀ b64 e, e.tag = "BinaryString" ∨ e.tag = "ProtectedString" →
      ∃ v, extract b64 e = .ok v) ∧
    (∀ b64 e, e.tag = "BinaryString" ∨ e.tag = "ProtectedString" →
      b64 (pyOr e.text "") = none →
      extract b64 e = .ok (.str (pyOr e.text ""))) ∧
    extract b64none (.mk "PhysicalProperties" (some "CustomPhysicalProperties") none []) =
      .error .attributeError ∧
    parse b64none "place"
        [.mk (some "A") (some "Part")
          [.mk "PhysicalProperties" (some "CustomPhysicalProperties") none []] []] =
      .error .attributeError := by
  refine ⟨?_, ?_, by decide, rfl⟩
  · intro b64 e htag
    obtain ⟨tg, nm, tx, ch⟩ := e
    have ht : tg = "BinaryString" ∨ tg = "ProtectedString" := htag
    have hne : ¬(tg = "string") ∧ ¬(tg = "int" ∨ tg = "int64") ∧
        ¬(tg = "float" ∨ tg = "double") ∧ ¬(tg = "bool") ∧ ¬(tg = "Content") := by
      rcases ht with h | h <;> subst h <;> refine ⟨by decide, by decide, by decide, by decide, by decide⟩
    unfold extract
    simp only [PropElem.tag, PropElem.text, hne.1, hne.2.1, hne.2.2.1, hne.2.2.2.1,
      hne.2.2.2.2, ht, if_false, if_true, or_true, true_or, if_pos]
    cases tx with
    | none => exact ⟨.str "", rfl⟩
    | some s =>
      by_cases hs : s = ""
      · subst hs; exact ⟨.str "", by simp⟩
      · refine ⟨.str ((b64 s).getD s), ?_⟩
        simp [hs]
  · intro b64 e htag hb
    obtain ⟨tg, nm, tx, ch⟩ := e
    simp only [PropElem.text] at hb
    have ht : tg = "BinaryString" ∨ tg = "ProtectedString" := htag
    have hne : ¬(tg = "string") ∧ ¬(tg = "int" ∨ tg = "int64") ∧
        ¬(tg = "float" ∨ tg = "double") ∧ ¬(tg = "bool") ∧ ¬(tg = "Content") := by
      rcases ht with h | h <;> subst h <;> refine ⟨by decide, by decide, by decide, by decide, by decide⟩
    unfold extract
    simp only [PropElem.tag, PropElem.text, hne.1, hne.2.1, hne.2.2.1, hne.2.2.2.1,
      hne.2.2.2.2, ht, if_false, if_true, or_true, true_or, if_pos]
    cases tx with
    | none => rfl
    | some s =>
      by_cases hs : s = ""
      · subst hs; simp [pyOr]
      · have : pyOr (some s) "" = s := by simp [pyOr, hs]
        rw [this] at hb
        simp [hs, hb, pyOr]

/-- C2, witness for the amended statement's hypotheses, at a
`BinaryString` element whose text the base64 decoder rejects. -/
theorem C2_amended_witness :
    (PropElem.mk "BinaryString" (some "Source") (some "не base64") [] : PropElem).tag =
        "BinaryString" ∧
      b64none (pyOr (some "не base64") "") = none ∧
      extract b64none (.mk "BinaryString" (some "Source") (some "не base64") []) =
        .ok (.str (pyOr (some "не base64") "")) :=
  ⟨rfl, rfl,
    C2_amended.2.1 b64none (.mk "BinaryString" (some "Source") (some "не base64") [])
      (Or.inl rfl) rfl⟩

/-! ## C4 — idempotence of the name normalizer -/

theorem dropWhile_eq_self_of_all_false {p : Char → Bool} :
    ∀ l : List Char, (∀ x ∈ l, p x = false) → l.dropWhile p = l := by
  intro l h
  cases l with
  | nil => rfl
  | cons c t => simp [List.dropWhile_cons, h c (by simp)]

theorem pyStrip_eq_self_of_all_false {p : Char → Bool} (l : List Char)
    (h : ∀ x ∈ l, p x = false) : pyStrip p l = l := by
  unfold pyStrip
  rw [dropWhile_eq_self_of_all_false l h,
    dropWhile_eq_self_of_all_false l.reverse (by intro x hx; exact h x (by simpa using hx)),
    List.reverse_reverse]

theorem mem_pyStrip {p : Char → Bool} {l : List Char} {x : Char}
    (h : x ∈ pyStrip p l) : x ∈ l := by
  unfold pyStrip at h
  rw [List.mem_reverse] at h
  have h1 := (List.dropWhile_sublist (l := (l.dropWhile p).reverse) (p := p)).mem h
  rw [List.mem_reverse] at h1
  exact (List.dropWhile_sublist (l := l) (p := p)).mem h1

theorem head?_dropWhile {p : Char → Bool} :
    ∀ (l : List Char) (x : Char), (l.dropWhile p).head? = some x → p x = false := by
  intro l
  induction l with
  | nil => intro x h; cases h
  | cons c t ih =>
    intro x h
    rw [List.dropWhile_cons] at h
    by_cases hc : p c
    · rw [if_pos hc] at h; exact ih x h
    · rw [if_neg hc] at h
      cases h
      simpa using hc

theorem getLast?_dropWhile {p : Char → Bool} :
    ∀ l : List Char, l.dropWhile p ≠ [] → (l.dropWhile p).getLast? = l.getLast? := by
  intro l
  induction l with
  | nil => intro h; cases h rfl
  | cons c t ih =>
    intro h
    rw [List.dropWhile_cons] at h ⊢
    by_cases hc : p c
    · rw [if_pos hc] at h ⊢
      have ht : t ≠ [] := by
        intro he
        subst he
        exact h rfl
      rw [ih h]
      cases t with
      | nil => cases ht rfl
      | cons a b => rw [List.getLast?_cons_cons]
    · rw [if_neg hc]

theorem pyStrip_head {p : Char → Bool} {l : List Char} {x : Char}
    (h : (pyStrip p l).head? = some x) : p x = false := by
  unfold pyStrip at h
  rw [List.head?_reverse] at h
  have hne : (l.dropWhile p).reverse.dropWhile p ≠ [] := by
    intro he
    rw [he] at h
    cases h
  rw [getLast?_dropWhile _ hne, List.getLast?_reverse] at h
  exact head?_dropWhile l x h

theorem pyStrip_getLast {p : Char → Bool} {l : List Char} {x : Char}
    (h : (pyStrip p l).getLast? = some x) : p x = false := by
  unfold pyStrip at h
  rw [List.getLast?_reverse] at h
  exact head?_dropWhile _ x h

theorem pyStrip_eq_self_of_ends {p : Char → Bool} (l : List Char)
    (h1 : ∀ x, l.head? = some x → p x = false)
    (h2 : ∀ x, l.getLast? = some x → p x = false) : pyStrip p l = l := by
  unfold pyStrip
  have hd : l.dropWhile p = l := by
    cases hl : l with
    | nil => rfl
    | cons c t =>
      rw [List.dropWhile_cons, if_neg]
      rw [h1 c (by rw [hl]; rfl)]
      simp
  rw [hd]
  have hr : l.reverse.dropWhile p = l.reverse := by
    cases hl : l.reverse with
    | nil => rfl
    | cons c t =>
      rw [List.dropWhile_cons, if_neg]
      have : l.getLast? = some c := by
        rw [← List.head?_reverse, hl]; rfl
      rw [h2 c this]
      simp
  rw [hr, List.reverse_reverse]

theorem valid_space_eq_space (c : Char) (h1 : pyValidChar c = true)
    (h2 : isPySpace c = true) : c = ' ' := by
  unfold isPySpace at h2
  simp only [Bool.or_eq_true, decide_eq_true_eq] at h2
  rcases h2 with ((((h | h) | h) | h) | h) | h
  · exact h
  all_goals (subst h; exact absurd h1 (by decide))

/-- C4, counterexample: the claim says `normalize` is idempotent and that
one application already strips all leading underscores and whitespace;
but `normalize(" _a") = "_a"` — the final whitespace strip exposes a
leading underscore — and a second application strips it to `"a"`. -/
theorem C4_counterexample :
    normalize_name (normalize_name " _a") ≠ normalize_name " _a" ∧
      normalize_name " _a" = "_a" ∧ normalize_name "_a" = "a" := by
  decide

/-- C4, amended: the name normalizer is idempotent on every string that
contains no space character (for such inputs nothing whitespace-like
survives the replacement step, so the final whitespace strip cannot
expose new boundary underscores); on strings containing spaces
idempotence can fail, as the counterexample `" _a"` shows. -/
theorem C4_amended (s : String) (h : ' ' ∉ s.data) :
    normalize_name (normalize_name s) = normalize_name s := by
  have repl_valid : ∀ c ∈ s.data.map (fun c => if pyValidChar c then c else '_'),
      pyValidChar c = true := by
    intro c hc
    rw [List.mem_map] at hc
    obtain ⟨c0, _, hrepl⟩ := hc
    by_cases hv : pyValidChar c0
    · rw [if_pos hv] at hrepl; obtain rfl := hrepl; exact hv
    · rw [if_neg hv] at hrepl; obtain rfl := hrepl; decide
  have repl_nospace : ∀ c ∈ s.data.map (fun c => if pyValidChar c then c else '_'),
      isPySpace c = false := by
    intro c hc
    rw [List.mem_map] at hc
    obtain ⟨c0, hc0, hrepl⟩ := hc
    by_cases hv : pyValidChar c0
    · rw [if_pos hv] at hrepl
      obtain rfl := hrepl
      by_cases hsp : isPySpace c0
      · exact absurd (valid_space_eq_space c0 hv hsp ▸ hc0) h
      · simpa using hsp
    · rw [if_neg hv] at hrepl; obtain rfl := hrepl; decide
  set r := s.data.map (fun c => if pyValidChar c then c else '_') with hr
  set t := pyStrip (fun c => c = '_') r with htdef
  have t_valid : ∀ c ∈ t, pyValidChar c = true := fun c hc => repl_valid c (mem_pyStrip hc)
  have t_nospace : ∀ c ∈ t, isPySpace c = false := fun c hc => repl_nospace c (mem_pyStrip hc)
  have hws : pyStrip isPySpace t = t := pyStrip_eq_self_of_all_false t t_nospace
  have hnorm : normalize_name s = if t.isEmpty then "unnamed" else String.mk t := by
    simp only [normalize_name, ← hr, ← htdef, hws]
  by_cases hemp : t.isEmpty
  · rw [hnorm, if_pos hemp]
    decide
  · rw [hnorm, if_neg hemp]
    have hdata : (String.mk t).data = t := rfl
    have hmap : t.map (fun c => if pyValidChar c then c else '_') = t := by
      rw [List.map_congr_left (g := id) (fun c hc => by rw [if_pos (t_valid c hc)]; rfl),
        List.map_id]
    have hstrip1 : pyStrip (fun c => c = '_') t = t := by
      refine pyStrip_eq_self_of_ends t (fun x hx => ?_) (fun x hx => ?_)
      · rw [htdef] at hx
        exact pyStrip_head hx
      · rw [htdef] at hx
        exact pyStrip_getLast hx
    simp only [normalize_name, hdata, hmap, hstrip1, hws]
    rw [if_neg hemp]

/-- C4, witness for the amended statement, at the space-free string
`"_x-y!"`. -/
theorem C4_amended_witness :
    ' ' ∉ ("_x-y!" : String).data ∧
      normalize_name (normalize_name "_x-y!") = normalize_name "_x-y!" :=
  ⟨by decide, C4_amended "_x-y!" (by decide)⟩

/-! ## C1 — transform flattening in metadata sidecars -/

/-- A decoded transform (CFrame) record: position `X`, `Y`, `Z` and the
nine rotation-matrix components, exactly as the `CFrame` decoder branch
produces for a fully populated element. -/
def cframeDictC1 : List (String × Prim) :=
  [("X", .num 1), ("Y", .num 2), ("Z", .num 3),
   ("R00", .num 1), ("R01", .num 0), ("R02", .num 0),
   ("R10", .num 0), ("R11", .num 1), ("R12", .num 0),
   ("R20", .num 0), ("R21", .num 0), ("R22", .num 1)]

/-- C1: a transform record containing the rotation-matrix field `R00`
(and `X`, `Y`, `Z`) is flattened in the sidecar to the **3**-element list
`[X, Y, Z]`, not the claimed 12-element list: the Vector3 branch of
`_create_meta_file` tests only for the presence of `X`, `Y`, `Z` and
precedes the transform branch in the `elif` chain, so the 12-element
branch is unreachable.  The source's own comment on that branch ("for
CFrame, we need position and rotation matrix") documents the 12-element
intent, so this is a defect of the code rather than of the claim. -/
theorem C1_transform_flattened_as_vector3 :
    metaVal (.dict cframeDictC1) = .list [.num 1, .num 2, .num 3] ∧
      metaProps [("CFrame", .dict cframeDictC1)] =
        [("CFrame", .list [.num 1, .num 2, .num 3])] ∧
      metaVal (.dict cframeDictC1) ≠
        .list [.num 1, .num 2, .num 3, .num 1, .num 0, .num 0,
               .num 0, .num 1, .num 0, .num 0, .num 0, .num 1] := by
  decide

/-! ## C3 — script nodes with children -/

/-- The sublist of a flat-mapped list contributed by one element. -/
theorem sublist_flatMap_of_mem {α β : Type} (f : α → List β) {l : List α} {a : α}
    (h : a ∈ l) : (f a).Sublist (l.flatMap f) := by
  induction l with
  | nil => cases h
  | cons x t ih =>
    rw [List.flatMap_cons]
    rcases List.mem_cons.mp h with rfl | h1
    · exact List.sublist_append_left _ _
    · exact (ih h1).trans (List.sublist_append_right _ _)

/-- Concrete game data for C3: a root `Script` named `Main` with one
child `Part` named `P`. -/
def gdC3 : GameData :=
  ⟨"G",
   [("s", ⟨"Script", [("Name", .str "Main"), ("Source", .str "print!")], ["p"]⟩),
    ("p", ⟨"Part", [("Name", .str "P")], []⟩)],
   ["s"]⟩

/-- C3, counterexample: the claim says the script node's metadata sidecar
is written **into** the sibling directory; the source writes it next to
the script file (into `script_path.parent`), so for a root script
`Main` the sidecar lands at `src/Main.meta.json` and no
`src/Main/Main.meta.json` exists, while children are still recursed into
the sibling directory `src/Main`. -/
theorem C3_counterexample :
    generate_project 5 gdC3 ["out"] (fun _ => none) ["out", "src", "Main.meta.json"] =
        some (.file (.meta "Script" [])) ∧
      generate_project 5 gdC3 ["out"] (fun _ => none) ["out", "src", "Main", "Main.meta.json"] =
        none ∧
      generate_project 5 gdC3 ["out"] (fun _ => none) ["out", "src", "Main"] = some .dir ∧
      generate_project 5 gdC3 ["out"] (fun _ => none) ["out", "src", "Main", "P"] = some .dir := by
  decide

/-- C3, amended: for every script-like node with at least one child,
emission writes the script node's metadata sidecar **next to the script
file** (into the containing parent directory, not into the sibling
directory), creates the sibling directory named `normalize(display
name)` (no extension) for each child found in the instance map, and
recurses that child into the sibling directory as a non-root call (the
child's full operation trace, rooted at the sibling directory with
`is_root=False`, is embedded in the script's trace). -/
theorem C3_amended (gd : GameData) (fuel : Nat) (inst : EInst) (parentPath : FilePath')
    (hclass : inst.className ∈ scriptClasses) (hch : inst.children ≠ []) :
    Op.write (parentPath ++ [normalize_name inst.displayName ++ ".meta.json"])
        (.meta inst.className (metaProps inst.properties)) ∈
      createScriptFile gd fuel inst parentPath ∧
    ∀ cr ∈ inst.children, ∀ c, gd.instances.lookup cr = some c →
      Op.mkdirP (parentPath ++ [normalize_name inst.displayName]) ∈
          createScriptFile gd fuel inst parentPath ∧
        (processInstance gd fuel c (parentPath ++ [normalize_name inst.displayName])
            false).Sublist
          (createScriptFile gd fuel inst parentPath) := by
  have hclass' : inst.className = "Script" ∨ inst.className = "LocalScript" ∨
      inst.className = "ModuleScript" := by
    simpa [scriptClasses] using hclass
  have hnf : inst.className ≠ "Folder" := by
    rcases hclass' with h | h | h <;> rw [h] <;> decide
  have hmeta : metaOps inst parentPath =
      [.write (parentPath ++ [normalize_name inst.displayName ++ ".meta.json"])
        (.meta inst.className (metaProps inst.properties))] := by
    unfold metaOps
    rw [if_pos (Or.inl hnf)]
  simp only [createScriptFile, scriptFileOps]
  rw [if_pos hch, hmeta]
  constructor
  · simp
  · intro cr hcr c hc
    have hseg : (fun cr => match gd.instances.lookup cr with
        | some c =>
          Op.mkdirP (parentPath ++ [normalize_name inst.displayName]) ::
            processInstance gd fuel c (parentPath ++ [normalize_name inst.displayName]) false
        | none => []) cr =
        Op.mkdirP (parentPath ++ [normalize_name inst.displayName]) ::
          processInstance gd fuel c (parentPath ++ [normalize_name inst.displayName]) false := by
      simp only [hc]
    have hsub := sublist_flatMap_of_mem
      (fun cr => match gd.instances.lookup cr with
        | some c =>
          Op.mkdirP (parentPath ++ [normalize_name inst.displayName]) ::
            processInstance gd fuel c (parentPath ++ [normalize_name inst.displayName]) false
        | none => []) hcr
    rw [hseg] at hsub
    constructor
    · exact List.mem_append_right _
        (List.mem_append_right _ (hsub.mem (List.mem_cons_self _ _)))
    · exact (((List.sublist_cons_self _ _).trans hsub).trans
        (List.sublist_append_right _ _)).trans (List.sublist_append_right _ _)

/-- C3, witness for the amended statement, at the concrete `gdC3` script
node. -/
theorem C3_amended_witness :
    ("Script" ∈ scriptClasses ∧ (["p"] : List String) ≠ []) ∧
      Op.write (["out", "src"] ++ [normalize_name
            (EInst.displayName ⟨"Script", [("Name", .str "Main"), ("Source", .str "print!")], ["p"]⟩) ++
            ".meta.json"])
          (.meta "Script" (metaProps [("Name", .str "Main"), ("Source", .str "print!")])) ∈
        createScriptFile gdC3 4
          ⟨"Script", [("Name", .str "Main"), ("Source", .str "print!")], ["p"]⟩
          ["out", "src"] :=
  ⟨⟨by decide, by decide⟩,
    (C3_amended gdC3 4 ⟨"Script", [("Name", .str "Main"), ("Source", .str "print!")], ["p"]⟩
      ["out", "src"] (by decide) (by decide)).1⟩

/-! ## C8 — idempotence of emission -/

/-- The content an operation writes at path `q`, if it is a write to
`q`. -/
def opWriteAt (q : FilePath') (o : Op) : Option Content :=
  match o with
  | .write p c => if p = q then some c else none
  | .mkdirP _ => none

/-- The last content written at path `q` by a trace. -/
def lastWriteAt (q : FilePath') (L : List Op) : Option Content :=
  (L.filterMap (opWriteAt q)).getLast?

/-- Whether an operation affects path `q` at all. -/
def opTouches (q : FilePath') (o : Op) : Bool :=
  match o with
  | .mkdirP p => q.isPrefixOf p
  | .write p _ => q = p

/-- Whether any operation of a trace affects path `q`. -/
def touchesAt (q : FilePath') (L : List Op) : Bool := L.any (opTouches q)

/-- The effect of one operation on the entry at a single path. -/
def stepAt (q : FilePath') (v : Option Entry) (o : Op) : Option Entry :=
  match o with
  | .mkdirP p =>
    if q.isPrefixOf p then
      match v with
      | none => some .dir
      | some e => some e
    else v
  | .write p c => if q = p then some (.file c) else v

theorem applyOp_at (fs : FS) (o : Op) (q : FilePath') :
    applyOp fs o q = stepAt q (fs q) o := by
  cases o <;> rfl

theorem applyOps_at (L : List Op) (fs : FS) (q : FilePath') :
    applyOps L fs q = L.foldl (stepAt q) (fs q) := by
  induction L generalizing fs with
  | nil => rfl
  | cons o t ih =>
    show applyOps t (applyOp fs o) q = _
    rw [ih, applyOp_at]
    rfl

theorem foldl_stepAt_char (q : FilePath') (L : List Op) (v : Option Entry) :
    L.foldl (stepAt q) v =
      match lastWriteAt q L with
      | some c => some (.file c)
      | none => if touchesAt q L then some (v.getD .dir) else v := by
  induction L using List.reverseRecOn generalizing v with
  | nil => rfl
  | append_singleton t o ih =>
    rw [List.foldl_append, List.foldl_cons, List.foldl_nil, ih]
    cases o with
    | write p c =>
      by_cases hpq : p = q
      · have hfm : lastWriteAt q (t ++ [Op.write p c]) = some c := by
          unfold lastWriteAt
          rw [List.filterMap_append]
          simp [opWriteAt, hpq, List.getLast?_concat]
        rw [hfm]
        simp only [stepAt]
        rw [if_pos hpq.symm]
      · have hqp : ¬q = p := fun he => hpq he.symm
        have hfm : lastWriteAt q (t ++ [Op.write p c]) = lastWriteAt q t := by
          unfold lastWriteAt
          rw [List.filterMap_append]
          simp [opWriteAt, hpq]
        have hta : touchesAt q (t ++ [Op.write p c]) = touchesAt q t := by
          unfold touchesAt
          rw [List.any_append]
          simp [opTouches, hqp]
        rw [hfm, hta]
        simp only [stepAt]
        rw [if_neg hqp]
    | mkdirP p =>
      have hfm : lastWriteAt q (t ++ [Op.mkdirP p]) = lastWriteAt q t := by
        unfold lastWriteAt
        rw [List.filterMap_append]
        simp [opWriteAt]
      rw [hfm]
      by_cases hpre : q.isPrefixOf p
      · have hta : touchesAt q (t ++ [Op.mkdirP p]) = true := by
          unfold touchesAt
          rw [List.any_append]
          simp [opTouches, hpre]
        rw [hta]
        cases hlw : lastWriteAt q t with
        | some c0 =>
          simp only [stepAt]
          rw [if_pos hpre]
        | none =>
          simp only [stepAt, if_pos hpre]
          by_cases ht : touchesAt q t
          · rw [if_pos ht]
            cases v <;> simp
          · rw [if_neg ht]
            cases v <;> simp
      · have hta : touchesAt q (t ++ [Op.mkdirP p]) = touchesAt q t := by
          unfold touchesAt
          rw [List.any_append]
          simp [opTouches, hpre]
        rw [hta]
        simp only [stepAt]
        rw [if_neg hpre]

theorem foldl_stepAt_idem (q : FilePath') (L : List Op) (v : Option Entry) :
    L.foldl (stepAt q) (L.foldl (stepAt q) v) = L.foldl (stepAt q) v := by
  rw [foldl_stepAt_char q L v, foldl_stepAt_char q L]
  cases hlw : lastWriteAt q L
  · by_cases ht : touchesAt q L
    · simp [ht]
    · simp [ht]
  · rfl

/-- Applying the same operation trace twice equals applying it once:
directory creation is create-if-absent, and every file write overwrites
with the same content. -/
theorem applyOps_idem (L : List Op) (fs : FS) :
    applyOps L (applyOps L fs) = applyOps L fs := by
  funext q
  rw [applyOps_at L (applyOps L fs) q, applyOps_at L fs q, foldl_stepAt_idem]

/-- C8: emission is idempotent on the filesystem state — for every game
data, output directory, recursion budget and starting filesystem,
running the project emitter a second time over the state produced by the
first run leaves every file and directory unchanged (directory creation
skips existing directories; every file write is an unconditional
deterministic overwrite). -/
theorem C8_emission_idempotent (fuel : Nat) (gd : GameData) (out : FilePath') (fs : FS) :
    generate_project fuel gd out (generate_project fuel gd out fs) =
      generate_project fuel gd out fs :=
  applyOps_idem (emitOps fuel gd out) fs

/-! ## Tree and counting lemmas for the parser claims (C7, C10) -/

/-- The referent attributes carried by the node-declaring elements of a
document, in document order. -/
def allRefs (doc : List Item) : List String :=
  (Item.preorderL doc).filterMap Item.referent

/-- Number of direct child elements of `it` carrying referent `c`. -/
def childRefCount (c : String) (it : Item) : Nat :=
  it.children.countP (fun ch => ch.referent = some c)

/-- Number of pass-2 steps in `l` that would append `c` as a child:
elements with a registered referent, weighted by how many of their direct
children carry referent `c`. -/
def appendsCount (keys : String → Bool) (c : String) (l : List Item) : Nat :=
  (l.map (fun it =>
    match it.referent with
    | some r => if keys r then childRefCount c it else 0
    | none => 0)).sum

theorem countP_preorderL (p : Item → Bool) :
    ∀ l : List Item,
      (Item.preorderL l).countP p =
        l.countP p + ((Item.preorderL l).map (fun it => it.children.countP p)).sum
  | [] => by simp [Item.preorderL]
  | (Item.mk r c pr ch) :: t => by
    have h1 := countP_preorderL p ch
    have h2 := countP_preorderL p t
    simp only [Item.preorderL, Item.preorder, List.countP_append, List.map_append,
      List.sum_append, List.countP_cons, List.map_cons, List.sum_cons, Item.children,
      h1, h2]
    omega
termination_by l => sizeOf l

theorem Item.preorder_eq (it : Item) :
    it.preorder = it :: Item.preorderL it.children := by
  cases it
  rfl

theorem Item.postorder_eq (it : Item) :
    it.postorder = Item.postorderL it.children ++ [it] := by
  cases it
  rfl

theorem preorderL_cons (x : Item) (t : List Item) :
    Item.preorderL (x :: t) = x.preorder ++ Item.preorderL t := rfl

theorem postorderL_cons (x : Item) (t : List Item) :
    Item.postorderL (x :: t) = x.postorder ++ Item.postorderL t := rfl

theorem mem_postorderL_iff :
    ∀ (l : List Item) (it : Item), it ∈ Item.postorderL l ↔ it ∈ Item.preorderL l
  | [], it => by simp [Item.postorderL, Item.preorderL]
  | (Item.mk r c pr ch) :: t, it => by
    have h1 := fun it => mem_postorderL_iff ch it
    have h2 := fun it => mem_postorderL_iff t it
    rw [postorderL_cons, preorderL_cons, Item.postorder_eq, Item.preorder_eq]
    simp only [List.mem_append, List.mem_cons, List.mem_singleton, List.not_mem_nil,
      or_false, h1, h2, Item.children]
    tauto
termination_by l => sizeOf l

theorem self_mem_preorderL {l : List Item} {x : Item} (h : x ∈ l) :
    x ∈ Item.preorderL l := by
  induction l with
  | nil => cases h
  | cons y t ih =>
    rw [preorderL_cons, Item.preorder_eq, List.mem_append, List.mem_cons]
    rcases List.mem_cons.mp h with rfl | h1
    · left; left; rfl
    · right; exact ih h1

theorem children_mem_preorderL :
    ∀ (l : List Item) (it ch : Item), it ∈ Item.preorderL l → ch ∈ it.children →
      ch ∈ Item.preorderL l
  | [], it, ch => by simp [Item.preorderL]
  | (Item.mk r c pr cl) :: t, it, ch => by
    intro hit hch
    rw [preorderL_cons, Item.preorder_eq, List.mem_append, List.mem_cons] at hit ⊢
    rcases hit with (heq | hit) | hit
    · rw [heq, Item.children] at hch
      left; right
      exact self_mem_preorderL hch
    · left; right
      exact children_mem_preorderL cl it ch hit hch
    · right
      exact children_mem_preorderL t it ch hit hch
termination_by l _ _ => sizeOf l

theorem two_mem_le_countP {α : Type} (p : α → Bool) :
    ∀ {l : List α} {x y : α}, x ∈ l → y ∈ l → x ≠ y → p x → p y → 2 ≤ l.countP p := by
  intro l
  induction l with
  | nil => intro x y hx; cases hx
  | cons a t ih =>
    intro x y hx hy hxy hpx hpy
    rw [List.countP_cons]
    rcases List.mem_cons.mp hx with rfl | hx1
    · rcases List.mem_cons.mp hy with rfl | hy1
      · cases hxy rfl
      · have h1 : 0 < t.countP p := List.countP_pos_iff.mpr ⟨y, hy1, hpy⟩
        rw [if_pos hpx]
        omega
    · rcases List.mem_cons.mp hy with rfl | hy1
      · have h1 : 0 < t.countP p := List.countP_pos_iff.mpr ⟨x, hx1, hpx⟩
        rw [if_pos hpy]
        omega
      · have := ih hx1 hy1 hxy hpx hpy
        omega

theorem add_le_sum_of_two_mem {α : Type} (f : α → Nat) :
    ∀ {l : List α} {x y : α}, x ∈ l → y ∈ l → x ≠ y → f x + f y ≤ (l.map f).sum := by
  intro l
  induction l with
  | nil => intro x y hx; cases hx
  | cons a t ih =>
    intro x y hx hy hxy
    rw [List.map_cons, List.sum_cons]
    rcases List.mem_cons.mp hx with rfl | hx1
    · rcases List.mem_cons.mp hy with rfl | hy1
      · cases hxy rfl
      · have h1 : f y ≤ (t.map f).sum := List.single_le_sum (by simp) _ (List.mem_map_of_mem f hy1)
        omega
    · rcases List.mem_cons.mp hy with rfl | hy1
      · have h1 : f x ≤ (t.map f).sum := List.single_le_sum (by simp) _ (List.mem_map_of_mem f hx1)
        omega
      · have := ih hx1 hy1 hxy
        omega

theorem mem_le_sum_map {α : Type} (f : α → Nat) {l : List α} {x : α} (h : x ∈ l) :
    f x ≤ (l.map f).sum :=
  List.single_le_sum (by simp) _ (List.mem_map_of_mem f h)

theorem count_filterMap_refs (c : String) :
    ∀ l : List Item, (l.filterMap Item.referent).count c =
      l.countP (fun it => it.referent = some c) := by
  intro l
  induction l with
  | nil => rfl
  | cons it t ih =>
    rw [List.countP_cons]
    cases hr : it.referent with
    | none =>
      rw [List.filterMap_cons_none hr, ih, if_neg (by simp [hr])]
      omega
    | some r =>
      rw [List.filterMap_cons_some hr, List.count_cons, ih]
      by_cases hrc : r = c
      · subst hrc
        simp [hr]
      · rw [if_neg (by simp [hr, hrc])]
        simp [hrc, Ne.symm hrc]

/-- Under unique referents, each referent occurs on at most one
node-declaring element of the document. -/
theorem nodup_countP_le_one {doc : List Item} (hnd : (allRefs doc).Nodup) (c : String) :
    (Item.preorderL doc).countP (fun it => it.referent = some c) ≤ 1 := by
  rw [← count_filterMap_refs]
  exact List.nodup_iff_count_le_one.mp hnd c

/-- Under unique referents, the total number of direct-child occurrences
of referent `c` across the whole document is at most one. -/
theorem nodup_childRefCount_le_one {doc : List Item} (hnd : (allRefs doc).Nodup)
    (c : String) :
    ((Item.preorderL doc).map (fun it => childRefCount c it)).sum ≤ 1 := by
  have h := countP_preorderL (fun it => it.referent = some c) doc
  have h2 := nodup_countP_le_one hnd c
  have : ((Item.preorderL doc).map (fun it => it.children.countP
      (fun ch => ch.referent = some c))).sum ≤ 1 := by omega
  simpa [childRefCount] using this

/-- The count `appendsCount` is bounded by the total direct-child occurrence
count. -/
theorem appendsCount_le_sum (keys : String → Bool) (c : String) (l : List Item) :
    appendsCount keys c l ≤ (l.map (fun it => childRefCount c it)).sum := by
  unfold appendsCount
  induction l with
  | nil => simp
  | cons it t ih =>
    rw [List.map_cons, List.sum_cons, List.map_cons, List.sum_cons]
    have hit : (match it.referent with
        | some r => if keys r then childRefCount c it else 0
        | none => 0) ≤ childRefCount c it := by
      cases it.referent with
      | none => simp
      | some r =>
        by_cases hk : keys r
        · simp [hk]
        · simp [hk]
    omega

/-! ## Parser state invariants -/

/-- The registered keys of the instances map agree with `keys`. -/
def KeysEq (st : PSt) (keys : String → Bool) : Prop :=
  ∀ x, (st.instances x).isSome = keys x

/-- Every id in a `children` list is a registered key. -/
def ChildClosed (st : PSt) (keys : String → Bool) : Prop :=
  ∀ r i c, st.instances r = some i → c ∈ i.children → keys c = true

/-- Every child id's record points back at the node listing it. -/
def ParentCons (st : PSt) : Prop :=
  ∀ r i c ci, st.instances r = some i → c ∈ i.children → st.instances c = some ci →
    ci.parent = some r

/-- Id `c` does not occur in any `children` list. -/
def NotPlaced (st : PSt) (c : String) : Prop :=
  ∀ r i, st.instances r = some i → c ∉ i.children

/-- The hierarchy-relevant part of an instance record (everything except
the properties dict). -/
def PInst.skel (i : PInst) : String × String × List String × Option String :=
  (i.className, i.referent, i.children, i.parent)

/-- Two parser states that agree on everything except property dicts. -/
def sameSkel (st' st : PSt) : Prop :=
  st'.order = st.order ∧ st'.childSet = st.childSet ∧
    ∀ x, (st'.instances x).map PInst.skel = (st.instances x).map PInst.skel

theorem sameSkel_refl (st : PSt) : sameSkel st st := ⟨rfl, rfl, fun _ => rfl⟩

theorem sameSkel_trans {a b c : PSt} (h1 : sameSkel a b) (h2 : sameSkel b c) :
    sameSkel a c :=
  ⟨h1.1.trans h2.1, h1.2.1.trans h2.2.1, fun x => (h1.2.2 x).trans (h2.2.2 x)⟩

theorem addProp_sameSkel (st : PSt) (r : String) (k : Option String) (v : Value) :
    sameSkel (st.addProp r k v) st := by
  refine ⟨rfl, rfl, fun x => ?_⟩
  show (if x = r then (st.instances r).map _ else st.instances x).map PInst.skel = _
  by_cases hx : x = r
  · subst hx
    rw [if_pos rfl]
    cases st.instances x <;> rfl
  · rw [if_neg hx]

theorem bindOk {α β : Type} {x : Except PyErr α} {f : α → Except PyErr β} {b : β}
    (h : (x >>= f) = .ok b) : ∃ a, x = .ok a ∧ f a = .ok b := by
  cases x with
  | error e => simp [Bind.bind, Except.bind] at h
  | ok a => exact ⟨a, rfl, by simpa [Bind.bind, Except.bind] using h⟩

theorem extractProps_sameSkel (b64 : String → Option String) (r : String) :
    ∀ (ps : List PropElem) (st st' : PSt), extractProps b64 r ps st = .ok st' →
      sameSkel st' st := by
  intro ps
  induction ps with
  | nil =>
    intro st st' h
    injection h with h
    subst h
    exact sameSkel_refl st
  | cons p t ih =>
    intro st st' h
    simp only [extractProps] at h
    obtain ⟨v, _, h2⟩ := bindOk h
    exact sameSkel_trans (ih _ _ h2) (addProp_sameSkel st r p.nameAttr v)

theorem sameSkel_isSome {st' st : PSt} (h : sameSkel st' st) (x : String) :
    (st'.instances x).isSome = (st.instances x).isSome := by
  have hx := h.2.2 x
  cases h1 : st'.instances x <;> cases h2 : st.instances x <;>
    rw [h1, h2] at hx <;> simp at hx ⊢

theorem sameSkel_get {st' st : PSt} (h : sameSkel st' st) {x : String} {i' : PInst}
    (hx : st'.instances x = some i') :
    ∃ i, st.instances x = some i ∧ i.className = i'.className ∧
      i.children = i'.children ∧ i.parent = i'.parent := by
  have hs := h.2.2 x
  rw [hx] at hs
  cases h2 : st.instances x with
  | none => rw [h2] at hs; cases hs
  | some i =>
    rw [h2] at hs
    simp only [Option.map_some', Option.some.injEq, PInst.skel, Prod.mk.injEq] at hs
    exact ⟨i, rfl, hs.1.symm, hs.2.2.1.symm, hs.2.2.2.symm⟩

/-- The instance map after one pass-2 child-linking step
(`appendChild`, `setParent`, `addChildSet`). -/
theorem linkStep_instances (st : PSt) (r c x : String) :
    ((((st.appendChild r c).setParent c r).addChildSet c).instances) x =
      if x = c then
        (if c = r then
          (st.instances r).map (fun i => { i with children := i.children ++ [c] })
         else st.instances c).map (fun i => { i with parent := some r })
      else if x = r then
        (st.instances r).map (fun i => { i with children := i.children ++ [c] })
      else st.instances x := rfl

theorem linkStep_childSet (st : PSt) (r c x : String) :
    ((((st.appendChild r c).setParent c r).addChildSet c).childSet) x =
      if x = c then true else st.childSet x := rfl

theorem linkStep_order (st : PSt) (r c : String) :
    ((((st.appendChild r c).setParent c r).addChildSet c).order) = st.order := rfl

theorem linkStep_isSome (st : PSt) (r c x : String) :
    (((((st.appendChild r c).setParent c r).addChildSet c)).instances x).isSome =
      (st.instances x).isSome := by
  rw [linkStep_instances]
  by_cases hxc : x = c
  · subst hxc
    rw [if_pos rfl]
    by_cases hxr : x = r
    · subst hxr
      rw [if_pos rfl]
      cases st.instances x <;> rfl
    · rw [if_neg hxr]
      cases st.instances x <;> rfl
  · rw [if_neg hxc]
    by_cases hxr : x = r
    · subst hxr
      rw [if_pos rfl]
      cases st.instances x <;> rfl
    · rw [if_neg hxr]

theorem linkChildren_cons_none (r : String) (ch : Item) (t : List Item) (st : PSt)
    (h : ch.referent = none) :
    linkChildren r (ch :: t) st = linkChildren r t st := by
  simp only [linkChildren, h]

theorem linkChildren_cons_some (r : String) (ch : Item) (t : List Item) (st : PSt)
    (c : String) (h : ch.referent = some c) :
    linkChildren r (ch :: t) st =
      if (st.instances c).isSome then
        linkChildren r t (((st.appendChild r c).setParent c r).addChildSet c)
      else linkChildren r t st := by
  simp only [linkChildren, h]

theorem pass2_cons_none (b64 : String → Option String) (it : Item) (t : List Item)
    (st : PSt) (h : it.referent = none) :
    pass2 b64 (it :: t) st = pass2 b64 t st := by
  simp only [pass2, h]

theorem pass2_cons_some (b64 : String → Option String) (it : Item) (t : List Item)
    (st : PSt) (r : String) (h : it.referent = some r) :
    pass2 b64 (it :: t) st =
      if (st.instances r).isSome then
        extractProps b64 r it.props st >>= fun st1 =>
          pass2 b64 t (linkChildren r it.children st1)
      else pass2 b64 t st := by
  simp only [pass2, h]

theorem linkChildren_closed (keys : String → Bool) (r : String) :
    ∀ (chs : List Item) (st : PSt),
      KeysEq st keys → ChildClosed st keys →
      KeysEq (linkChildren r chs st) keys ∧ ChildClosed (linkChildren r chs st) keys := by
  intro chs
  induction chs with
  | nil => intro st hK hC; exact ⟨hK, hC⟩
  | cons ch t ih =>
    intro st hK hC
    cases hr : ch.referent with
    | none =>
      rw [linkChildren_cons_none r ch t st hr]
      exact ih st hK hC
    | some c =>
      rw [linkChildren_cons_some r ch t st c hr]
      by_cases hc : (st.instances c).isSome
      · rw [if_pos hc]
        have hkc : keys c = true := by rw [← hK c]; exact (by simpa using hc)
        refine ih _ (fun x => ?_) ?_
        · rw [linkStep_isSome]; exact hK x
        · intro r' i' c' hi' hc'
          rw [linkStep_instances] at hi'
          by_cases hr'c : r' = c
          · rw [if_pos hr'c] at hi'
            by_cases hcr : c = r
            · rw [if_pos hcr] at hi'
              cases hrec : st.instances r with
              | none => rw [hrec] at hi'; cases hi'
              | some i =>
                rw [hrec] at hi'
                simp only [Option.map_some', Option.some.injEq] at hi'
                subst hi'
                simp only [List.mem_append, List.mem_singleton] at hc'
                rcases hc' with hc' | rfl
                · exact hC r i c' hrec hc'
                · exact hkc
            · rw [if_neg hcr] at hi'
              cases hrec : st.instances c with
              | none => rw [hrec] at hi'; cases hi'
              | some i =>
                rw [hrec] at hi'
                simp only [Option.map_some', Option.some.injEq] at hi'
                subst hi'
                exact hC c i c' hrec hc'
          · rw [if_neg hr'c] at hi'
            by_cases hr'r : r' = r
            · rw [if_pos hr'r] at hi'
              cases hrec : st.instances r with
              | none => rw [hrec] at hi'; cases hi'
              | some i =>
                rw [hrec] at hi'
                simp only [Option.map_some', Option.some.injEq] at hi'
                subst hi'
                simp only [List.mem_append, List.mem_singleton] at hc'
                rcases hc' with hc' | rfl
                · exact hC r i c' hrec hc'
                · exact hkc
            · rw [if_neg hr'r] at hi'
              exact hC r' i' c' hi' hc'
      · rw [if_neg hc]
        exact ih st hK hC

theorem pass2_closed (b64 : String → Option String) (keys : String → Bool) :
    ∀ (l : List Item) (st st' : PSt), pass2 b64 l st = .ok st' →
      KeysEq st keys → ChildClosed st keys →
      KeysEq st' keys ∧ ChildClosed st' keys := by
  intro l
  induction l with
  | nil =>
    intro st st' h hK hC
    injection h with h
    subst h
    exact ⟨hK, hC⟩
  | cons it t ih =>
    intro st st' h hK hC
    cases hr : it.referent with
    | none =>
      rw [pass2_cons_none b64 it t st hr] at h
      exact ih st st' h hK hC
    | some r =>
      rw [pass2_cons_some b64 it t st r hr] at h
      by_cases hreg : (st.instances r).isSome
      · rw [if_pos hreg] at h
        obtain ⟨st1, hx1, h2⟩ := bindOk h
        have hskel := extractProps_sameSkel b64 r it.props st st1 hx1
        have hK1 : KeysEq st1 keys := fun x => (sameSkel_isSome hskel x).trans (hK x)
        have hC1 : ChildClosed st1 keys := by
          intro r' i' c' hi' hc'
          obtain ⟨i, hi, _, hich, _⟩ := sameSkel_get hskel hi'
          exact hC r' i c' hi (hich ▸ hc')
        have hlk := linkChildren_closed keys r it.children st1 hK1 hC1
        exact ih _ st' h2 hlk.1 hlk.2
      · rw [if_neg hreg] at h
        exact ih st st' h hK hC

theorem appendsCount_cons (keys : String → Bool) (c : String) (it : Item) (t : List Item) :
    appendsCount keys c (it :: t) =
      (match it.referent with
       | some r => if keys r then childRefCount c it else 0
       | none => 0) + appendsCount keys c t := by
  unfold appendsCount
  rw [List.map_cons, List.sum_cons]

theorem sameSkel_parentCons {st1 st : PSt} (h : sameSkel st1 st) (hPC : ParentCons st) :
    ParentCons st1 := by
  intro r' i' c' ci' hi' hc' hci'
  obtain ⟨i, hi, _, hich, _⟩ := sameSkel_get h hi'
  obtain ⟨ci, hci, _, _, hcip⟩ := sameSkel_get h hci'
  rw [← hcip]
  exact hPC r' i c' ci hi (hich ▸ hc') hci

theorem sameSkel_notPlaced {st1 st : PSt} (h : sameSkel st1 st) {c : String}
    (hNP : NotPlaced st c) : NotPlaced st1 c := by
  intro r' i' hi'
  obtain ⟨i, hi, _, hich, _⟩ := sameSkel_get h hi'
  rw [← hich]
  exact hNP r' i hi

/-- After a linking step, the record at the linked child has its parent
set to the linking node. -/
theorem linkStep_at_child (st : PSt) (r c : String) (ci' : PInst)
    (h : (((st.appendChild r c).setParent c r).addChildSet c).instances c = some ci') :
    ci'.parent = some r := by
  rw [linkStep_instances, if_pos rfl] at h
  by_cases hcr : c = r
  · rw [if_pos hcr] at h
    cases hrec : st.instances r with
    | none => rw [hrec] at h; cases h
    | some i0 =>
      rw [hrec] at h
      simp only [Option.map_some', Option.some.injEq] at h
      subst h
      rfl
  · rw [if_neg hcr] at h
    cases hrec : st.instances c with
    | none => rw [hrec] at h; cases h
    | some i0 =>
      rw [hrec] at h
      simp only [Option.map_some', Option.some.injEq] at h
      subst h
      rfl

/-- After a linking step, every record other than the linked child keeps
its parent field. -/
theorem linkStep_parent_other (st : PSt) (r c : String) (x : String) (ci' : PInst)
    (hxc : x ≠ c)
    (h : (((st.appendChild r c).setParent c r).addChildSet c).instances x = some ci') :
    ∃ ci0, st.instances x = some ci0 ∧ ci'.parent = ci0.parent := by
  rw [linkStep_instances, if_neg hxc] at h
  by_cases hxr : x = r
  · rw [if_pos hxr] at h
    cases hrec : st.instances r with
    | none => rw [hrec] at h; cases h
    | some i0 =>
      rw [hrec] at h
      simp only [Option.map_some', Option.some.injEq] at h
      subst h
      exact ⟨i0, hxr ▸ hrec, rfl⟩
  · rw [if_neg hxr] at h
    exact ⟨ci', h, rfl⟩

/-- After a linking step, every record's children list is the old one,
or — only at the linking node — the old one with the child appended. -/
theorem linkStep_children (st : PSt) (r c : String) (x : String) (i' : PInst)
    (h : (((st.appendChild r c).setParent c r).addChildSet c).instances x = some i') :
    ∃ i, st.instances x = some i ∧
      (i'.children = i.children ∨ (x = r ∧ i'.children = i.children ++ [c])) := by
  rw [linkStep_instances] at h
  by_cases hxc : x = c
  · rw [if_pos hxc] at h
    by_cases hcr : c = r
    · rw [if_pos hcr] at h
      cases hrec : st.instances r with
      | none => rw [hrec] at h; cases h
      | some i0 =>
        rw [hrec] at h
        simp only [Option.map_some', Option.some.injEq] at h
        subst h
        exact ⟨i0, (hxc.trans hcr) ▸ hrec, Or.inr ⟨hxc.trans hcr, rfl⟩⟩
    · rw [if_neg hcr] at h
      cases hrec : st.instances c with
      | none => rw [hrec] at h; cases h
      | some i0 =>
        rw [hrec] at h
        simp only [Option.map_some', Option.some.injEq] at h
        subst h
        exact ⟨i0, hxc ▸ hrec, Or.inl rfl⟩
  · rw [if_neg hxc] at h
    by_cases hxr : x = r
    · rw [if_pos hxr] at h
      cases hrec : st.instances r with
      | none => rw [hrec] at h; cases h
      | some i0 =>
        rw [hrec] at h
        simp only [Option.map_some', Option.some.injEq] at h
        subst h
        exact ⟨i0, hxr ▸ hrec, Or.inr ⟨hxr, rfl⟩⟩
    · rw [if_neg hxr] at h
      exact ⟨i', h, Or.inl rfl⟩

theorem linkChildren_inv (keys : String → Bool) (r : String) :
    ∀ (chs : List Item) (st : PSt) (after : String → Nat),
      KeysEq st keys → ParentCons st →
      (∀ c, keys c = true →
        chs.countP (fun ch => ch.referent = some c) + after c ≤ 1) →
      (∀ c, keys c = true →
        1 ≤ chs.countP (fun ch => ch.referent = some c) + after c → NotPlaced st c) →
      KeysEq (linkChildren r chs st) keys ∧ ParentCons (linkChildren r chs st) ∧
        (∀ c, keys c = true → 1 ≤ after c → NotPlaced (linkChildren r chs st) c) := by
  intro chs
  induction chs with
  | nil =>
    intro st after hK hPC _ hNP
    exact ⟨hK, hPC, fun c hkc h1 => hNP c hkc (by simpa using h1)⟩
  | cons ch t ih =>
    intro st after hK hPC hB hNP
    have hmono : ∀ c, t.countP (fun x => x.referent = some c) ≤
        (ch :: t).countP (fun x => x.referent = some c) := by
      intro c
      rw [List.countP_cons]
      omega
    cases hr : ch.referent with
    | none =>
      rw [linkChildren_cons_none r ch t st hr]
      refine ih st after hK hPC (fun c hkc => ?_) (fun c hkc h1 => ?_)
      · exact le_trans (by have := hmono c; omega) (hB c hkc)
      · exact hNP c hkc (by have := hmono c; omega)
    | some c =>
      rw [linkChildren_cons_some r ch t st c hr]
      by_cases hc : (st.instances c).isSome
      · rw [if_pos hc]
        have hkc : keys c = true := by rw [← hK c]; simpa using hc
        have hcnt : (ch :: t).countP (fun x => x.referent = some c) =
            t.countP (fun x => x.referent = some c) + 1 := by
          rw [List.countP_cons, if_pos (by simp [hr])]
        have hzero : t.countP (fun x => x.referent = some c) + after c = 0 := by
          have := hB c hkc
          omega
        have hNPc : NotPlaced st c := hNP c hkc (by omega)
        have hK1 : KeysEq (((st.appendChild r c).setParent c r).addChildSet c) keys := by
          intro x
          rw [linkStep_isSome]
          exact hK x
        have hPC1 : ParentCons (((st.appendChild r c).setParent c r).addChildSet c) := by
          intro r' i' c' ci' hi' hc' hci'
          obtain ⟨i, hi, hch⟩ := linkStep_children st r c r' i' hi'
          by_cases hc'c : c' = c
          · rcases hch with hch | ⟨hrr, hch⟩
            · exact absurd (hch ▸ hc') (hc'c ▸ hNPc r' i hi)
            · rw [hrr]
              rw [hc'c] at hci'
              exact linkStep_at_child st r c ci' hci'
          · obtain ⟨ci0, hci0, hpar⟩ := linkStep_parent_other st r c c' ci' hc'c hci'
            rw [hpar]
            rcases hch with hch | ⟨_, hch⟩
            · exact hPC r' i c' ci0 hi (hch ▸ hc') hci0
            · have hmem : c' ∈ i.children ++ [c] := hch ▸ hc'
              rcases List.mem_append.mp hmem with hmem | hmem
              · exact hPC r' i c' ci0 hi hmem hci0
              · exact absurd (List.mem_singleton.mp hmem) hc'c
        have hNP1 : ∀ c2, keys c2 = true →
            1 ≤ t.countP (fun x => x.referent = some c2) + after c2 →
            NotPlaced (((st.appendChild r c).setParent c r).addChildSet c) c2 := by
          intro c2 hkc2 h1
          by_cases hc2c : c2 = c
          · subst hc2c
            omega
          · have hNP2 : NotPlaced st c2 := hNP c2 hkc2 (by have := hmono c2; omega)
            intro r' i' hi'
            obtain ⟨i, hi, hch⟩ := linkStep_children st r c r' i' hi'
            rcases hch with hch | ⟨_, hch⟩
            · rw [hch]
              exact hNP2 r' i hi
            · rw [hch]
              simp only [List.mem_append, List.mem_singleton]
              push_neg
              exact ⟨hNP2 r' i hi, hc2c⟩
        refine ih _ after hK1 hPC1 (fun c2 hkc2 => ?_) hNP1
        have h1 := hB c2 hkc2
        have h2 := hmono c2
        omega
      · rw [if_neg hc]
        refine ih st after hK hPC (fun c2 hkc2 => ?_) (fun c2 hkc2 h1 => ?_)
        · exact le_trans (by have := hmono c2; omega) (hB c2 hkc2)
        · exact hNP c2 hkc2 (by have := hmono c2; omega)

theorem pass2_inv (b64 : String → Option String) (keys : String → Bool) :
    ∀ (l : List Item) (st st' : PSt), pass2 b64 l st = .ok st' →
      KeysEq st keys → ParentCons st →
      (∀ c, keys c = true → appendsCount keys c l ≤ 1) →
      (∀ c, keys c = true → 1 ≤ appendsCount keys c l → NotPlaced st c) →
      KeysEq st' keys ∧ ParentCons st' := by
  intro l
  induction l with
  | nil =>
    intro st st' h hK hPC _ _
    injection h with h
    subst h
    exact ⟨hK, hPC⟩
  | cons it t ih =>
    intro st st' h hK hPC hB hNP
    have hmono : ∀ c, appendsCount keys c t ≤ appendsCount keys c (it :: t) := by
      intro c
      rw [appendsCount_cons]
      omega
    cases hr : it.referent with
    | none =>
      rw [pass2_cons_none b64 it t st hr] at h
      refine ih st st' h hK hPC (fun c hkc => ?_) (fun c hkc h1 => ?_)
      · exact le_trans (hmono c) (hB c hkc)
      · exact hNP c hkc (le_trans h1 (hmono c))
    | some r =>
      rw [pass2_cons_some b64 it t st r hr] at h
      by_cases hreg : (st.instances r).isSome
      · rw [if_pos hreg] at h
        obtain ⟨st1, hx1, h2⟩ := bindOk h
        have hkr : keys r = true := by rw [← hK r]; simpa using hreg
        have hskel := extractProps_sameSkel b64 r it.props st st1 hx1
        have hK1 : KeysEq st1 keys := fun x => (sameSkel_isSome hskel x).trans (hK x)
        have hPC1 : ParentCons st1 := sameSkel_parentCons hskel hPC
        have hcount : ∀ c, appendsCount keys c (it :: t) =
            childRefCount c it + appendsCount keys c t := by
          intro c
          simp only [appendsCount_cons, hr]
          rw [if_pos hkr]
        have hlk := linkChildren_inv keys r it.children st1
          (fun c => appendsCount keys c t) hK1 hPC1
          (fun c hkc => by
            have h1 := hB c hkc
            rw [hcount c] at h1
            exact h1)
          (fun c hkc h1 => by
            refine sameSkel_notPlaced hskel (hNP c hkc ?_)
            rw [hcount c]
            simp only [childRefCount]
            have h1' : 1 ≤ it.children.countP (fun ch => ch.referent = some c) +
                appendsCount keys c t := h1
            omega)
        refine ih _ st' h2 hlk.1 hlk.2.1 (fun c hkc => ?_) ?_
        · exact le_trans (hmono c) (hB c hkc)
        · exact hlk.2.2
      · rw [if_neg hreg] at h
        have hkr : keys r = false := by rw [← hK r]; simpa using hreg
        have hcount : ∀ c, appendsCount keys c (it :: t) = appendsCount keys c t := by
          intro c
          simp only [appendsCount_cons, hr]
          rw [if_neg (by simp [hkr])]
          omega
        refine ih st st' h hK hPC (fun c hkc => ?_) (fun c hkc h1 => ?_)
        · rw [← hcount c]; exact hB c hkc
        · exact hNP c hkc (by rw [hcount c]; exact h1)

/-! ## Pass-1 characterization and no-setter preservation -/

theorem pass1_cons_reg (it : Item) (t : List Item) (st : PSt) (r c : String)
    (h1 : it.referent = some r) (h2 : it.classAttr = some c) :
    pass1 (it :: t) st = pass1 t (st.register r c) := by
  simp only [pass1, h1, h2]

theorem pass1_cons_skip (it : Item) (t : List Item) (st : PSt)
    (h : it.referent = none ∨ it.classAttr = none) :
    pass1 (it :: t) st = pass1 t st := by
  rcases h with h | h
  · simp only [pass1, h]
  · cases hr : it.referent with
    | none => simp only [pass1, hr]
    | some r => simp only [pass1, hr, h]

theorem register_isSome (st : PSt) (r c x : String) :
    ((st.register r c).instances x).isSome = (decide (x = r) || (st.instances x).isSome) := by
  show (if x = r then some _ else st.instances x).isSome = _
  by_cases hx : x = r
  · rw [if_pos hx]
    simp [hx]
  · rw [if_neg hx]
    simp [hx]

theorem pass1_isSome :
    ∀ (l : List Item) (st : PSt) (x : String),
      ((pass1 l st).instances x).isSome =
        ((st.instances x).isSome ||
          l.any (fun it => it.referent == some x && it.classAttr.isSome)) := by
  intro l
  induction l with
  | nil =>
    intro st x
    show (st.instances x).isSome = _
    simp
  | cons it t ih =>
    intro st x
    rw [List.any_cons]
    cases hr : it.referent with
    | none =>
      rw [pass1_cons_skip it t st (Or.inl hr), ih]
      simp [hr]
    | some r =>
      cases hc : it.classAttr with
      | none =>
        rw [pass1_cons_skip it t st (Or.inr hc), ih]
        simp [hr, hc]
      | some cl =>
        rw [pass1_cons_reg it t st r cl hr hc, ih]
        rw [register_isSome]
        simp only [hr, hc, Option.isSome_some, Bool.and_true]
        by_cases hx : x = r
        · subst hx
          simp
        · simp only [decide_eq_false hx, Bool.false_or]
          have : (some r == some x) = false := by
            simp [Ne.symm hx]
          rw [this]
          simp

theorem pass1_fields :
    ∀ (l : List Item) (st : PSt),
      (∀ x i, st.instances x = some i → i.children = [] ∧ i.parent = none) →
      ∀ x i, (pass1 l st).instances x = some i → i.children = [] ∧ i.parent = none := by
  intro l
  induction l with
  | nil => intro st h; exact h
  | cons it t ih =>
    intro st h
    cases hr : it.referent with
    | none => rw [pass1_cons_skip it t st (Or.inl hr)]; exact ih st h
    | some r =>
      cases hc : it.classAttr with
      | none => rw [pass1_cons_skip it t st (Or.inr hc)]; exact ih st h
      | some cl =>
        rw [pass1_cons_reg it t st r cl hr hc]
        refine ih _ (fun x i hx => ?_)
        by_cases hxr : x = r
        · subst hxr
          have : (st.register x cl).instances x = some ⟨cl, x, [], [], none⟩ := by
            show (if x = x then _ else _) = _
            rw [if_pos rfl]
          rw [this] at hx
          injection hx with hx
          subst hx
          exact ⟨rfl, rfl⟩
        · have : (st.register r cl).instances x = st.instances x := by
            show (if x = r then _ else _) = _
            rw [if_neg hxr]
          rw [this] at hx
          exact h x i hx

theorem pass1_childSet :
    ∀ (l : List Item) (st : PSt), (pass1 l st).childSet = st.childSet := by
  intro l
  induction l with
  | nil => intro st; rfl
  | cons it t ih =>
    intro st
    cases hr : it.referent with
    | none => rw [pass1_cons_skip it t st (Or.inl hr)]; exact ih st
    | some r =>
      cases hc : it.classAttr with
      | none => rw [pass1_cons_skip it t st (Or.inr hc)]; exact ih st
      | some cl => rw [pass1_cons_reg it t st r cl hr hc]; exact ih _

theorem pass1_order_mem :
    ∀ (l : List Item) (st : PSt),
      (∀ x, x ∈ st.order ↔ (st.instances x).isSome = true) →
      ∀ x, x ∈ (pass1 l st).order ↔ (((pass1 l st).instances x).isSome = true) := by
  intro l
  induction l with
  | nil => intro st h; exact h
  | cons it t ih =>
    intro st h
    cases hr : it.referent with
    | none => rw [pass1_cons_skip it t st (Or.inl hr)]; exact ih st h
    | some r =>
      cases hc : it.classAttr with
      | none => rw [pass1_cons_skip it t st (Or.inr hc)]; exact ih st h
      | some cl =>
        rw [pass1_cons_reg it t st r cl hr hc]
        refine ih _ (fun x => ?_)
        rw [register_isSome]
        show x ∈ (if (st.instances r).isSome then st.order else st.order ++ [r]) ↔ _
        by_cases hxr : x = r
        · subst hxr
          by_cases hreg : (st.instances x).isSome
          · rw [if_pos hreg]
            simp [h x, hreg]
          · rw [if_neg hreg]
            simp
        · by_cases hreg : (st.instances r).isSome
          · rw [if_pos hreg]
            simp [h x, hxr]
          · rw [if_neg hreg]
            simp [h x, hxr, List.mem_append]

theorem linkChildren_order (r : String) :
    ∀ (chs : List Item) (st : PSt), (linkChildren r chs st).order = st.order := by
  intro chs
  induction chs with
  | nil => intro st; rfl
  | cons ch t ih =>
    intro st
    cases hr : ch.referent with
    | none => rw [linkChildren_cons_none r ch t st hr]; exact ih st
    | some c =>
      rw [linkChildren_cons_some r ch t st c hr]
      by_cases hc : (st.instances c).isSome
      · rw [if_pos hc, ih, linkStep_order]
      · rw [if_neg hc]; exact ih st

theorem pass2_order (b64 : String → Option String) :
    ∀ (l : List Item) (st st' : PSt), pass2 b64 l st = .ok st' → st'.order = st.order := by
  intro l
  induction l with
  | nil =>
    intro st st' h
    injection h with h
    subst h
    rfl
  | cons it t ih =>
    intro st st' h
    cases hr : it.referent with
    | none =>
      rw [pass2_cons_none b64 it t st hr] at h
      exact ih st st' h
    | some r =>
      rw [pass2_cons_some b64 it t st r hr] at h
      by_cases hreg : (st.instances r).isSome
      · rw [if_pos hreg] at h
        obtain ⟨st1, hx1, h2⟩ := bindOk h
        rw [ih _ st' h2, linkChildren_order, (extractProps_sameSkel b64 r it.props st st1 hx1).1]
      · rw [if_neg hreg] at h
        exact ih st st' h

theorem linkChildren_noSetter (r f : String) :
    ∀ (chs : List Item) (st : PSt),
      (∀ ch ∈ chs, ¬ch.referent = some f) →
      (∀ x, ((linkChildren r chs st).instances x).isSome = (st.instances x).isSome) ∧
      ((linkChildren r chs st).instances f).map PInst.parent =
        (st.instances f).map PInst.parent ∧
      (linkChildren r chs st).childSet f = st.childSet f ∧
      (NotPlaced st f → NotPlaced (linkChildren r chs st) f) := by
  intro chs
  induction chs with
  | nil => intro st _; exact ⟨fun _ => rfl, rfl, rfl, fun h => h⟩
  | cons ch t ih =>
    intro st hns
    have hns' : ∀ x ∈ t, ¬x.referent = some f := fun x hx => hns x (List.mem_cons_of_mem _ hx)
    cases hr : ch.referent with
    | none =>
      rw [linkChildren_cons_none r ch t st hr]
      exact ih st hns'
    | some c =>
      rw [linkChildren_cons_some r ch t st c hr]
      by_cases hc : (st.instances c).isSome
      · rw [if_pos hc]
        have hcf : c ≠ f := by
          intro he
          exact hns ch (List.mem_cons_self _ _) (he ▸ hr)
        have hstep := ih (((st.appendChild r c).setParent c r).addChildSet c) hns'
        refine ⟨fun x => (hstep.1 x).trans (linkStep_isSome st r c x), ?_, ?_, ?_⟩
        · rw [hstep.2.1, linkStep_instances, if_neg (Ne.symm hcf)]
          by_cases hfr : f = r
          · rw [if_pos hfr]
            subst hfr
            cases st.instances f <;> rfl
          · rw [if_neg hfr]
        · rw [hstep.2.2.1, linkStep_childSet, if_neg (Ne.symm hcf)]
        · intro hNP
          refine hstep.2.2.2 ?_
          intro r' i' hi'
          obtain ⟨i, hi, hch⟩ := linkStep_children st r c r' i' hi'
          rcases hch with hch | ⟨_, hch⟩
          · rw [hch]
            exact hNP r' i hi
          · rw [hch]
            simp only [List.mem_append, List.mem_singleton]
            push_neg
            exact ⟨hNP r' i hi, Ne.symm hcf⟩
      · rw [if_neg hc]
        exact ih st hns'

theorem pass2_noSetter (b64 : String → Option String) (keys : String → Bool) (f : String) :
    ∀ (l : List Item) (st st' : PSt), pass2 b64 l st = .ok st' →
      KeysEq st keys →
      appendsCount keys f l = 0 →
      (KeysEq st' keys ∧
        (st'.instances f).map PInst.parent = (st.instances f).map PInst.parent ∧
        st'.childSet f = st.childSet f ∧
        (NotPlaced st f → NotPlaced st' f)) := by
  intro l
  induction l with
  | nil =>
    intro st st' h hK _
    injection h with h
    subst h
    exact ⟨hK, rfl, rfl, fun hh => hh⟩
  | cons it t ih =>
    intro st st' h hK hz
    have hzt : appendsCount keys f t = 0 := by
      have := appendsCount_cons keys f it t
      omega
    cases hr : it.referent with
    | none =>
      rw [pass2_cons_none b64 it t st hr] at h
      exact ih st st' h hK hzt
    | some r =>
      rw [pass2_cons_some b64 it t st r hr] at h
      by_cases hreg : (st.instances r).isSome
      · rw [if_pos hreg] at h
        obtain ⟨st1, hx1, h2⟩ := bindOk h
        have hkr : keys r = true := by rw [← hK r]; simpa using hreg
        have hskel := extractProps_sameSkel b64 r it.props st st1 hx1
        have hK1 : KeysEq st1 keys := fun x => (sameSkel_isSome hskel x).trans (hK x)
        have hcc : childRefCount f it = 0 := by
          have := appendsCount_cons keys f it t
          rw [hr] at this
          simp only [if_pos hkr] at this
          omega
        have hns : ∀ ch ∈ it.children, ¬ch.referent = some f := by
          intro ch hch hcf
          have : 0 < childRefCount f it :=
            List.countP_pos_iff.mpr ⟨ch, hch, by simp [hcf]⟩
          omega
        have hlk := linkChildren_noSetter r f it.children st1 hns
        have hK2 : KeysEq (linkChildren r it.children st1) keys :=
          fun x => (hlk.1 x).trans (hK1 x)
        have hrec := ih _ st' h2 hK2 hzt
        refine ⟨hrec.1, ?_, ?_, ?_⟩
        · rw [hrec.2.1, hlk.2.1]
          have hp := hskel.2.2 f
          cases h1 : st1.instances f <;> cases h2f : st.instances f <;>
            rw [h1, h2f] at hp <;> simp [PInst.skel] at hp ⊢
          exact hp.2.2.2
        · rw [hrec.2.2.1, hlk.2.2.1, hskel.2.1]
        · intro hNP
          exact hrec.2.2.2 (hlk.2.2.2 (sameSkel_notPlaced hskel hNP))
      · rw [if_neg hreg] at h
        exact ih st st' h hK hzt

/-! ## C7 — hierarchy consistency -/

/-- The initial (empty) parser state. -/
def emptyPSt : PSt := ⟨fun _ => none, [], fun _ => false⟩

theorem parse_ok_destruct (b64 : String → Option String) (stem : String)
    (doc : List Item) (gd : PGameData) (h : parse b64 stem doc = .ok gd) :
    ∃ st2, pass2 b64 (Item.preorderL doc) (pass1 (Item.postorderL doc) emptyPSt) = .ok st2 ∧
      gd.instances = st2.instances ∧ gd.order = st2.order ∧
      gd.rootInstances = computeRoots st2 := by
  simp only [parse] at h
  cases hp : pass2 b64 (Item.preorderL doc)
      (pass1 (Item.postorderL doc) ⟨fun _ => none, [], fun _ => false⟩) with
  | error e =>
    rw [hp] at h
    cases h
  | ok st2 =>
    rw [hp] at h
    injection h with h
    subst h
    exact ⟨st2, hp, rfl, rfl, rfl⟩

theorem pass1_empty_fields (doc : List Item) :
    ∀ x i, ((pass1 (Item.postorderL doc) emptyPSt).instances x) = some i →
      i.children = [] ∧ i.parent = none := by
  refine pass1_fields (Item.postorderL doc) emptyPSt (fun x i hx => ?_)
  cases hx

/-- C7, counterexample: with the same referent `C` on two elements (one
under `A`, one under `B`), `C` ends up in `A`'s children list while its
`parent` back-reference points at `B`, so the claimed parent equality
fails for documents with duplicate referents. -/
def docC7dup : List Item :=
  [.mk (some "A") (some "Model") [] [.mk (some "C") (some "Part") [] []],
   .mk (some "B") (some "Model") [] [.mk (some "C") (some "Part") [] []]]

def gdC7dup : PGameData :=
  match parse b64none "place" docC7dup with
  | .ok gd => gd
  | .error _ => ⟨.str "", fun _ => none, [], []⟩

/-- C7, counterexample: the duplicate-referent document above parses
successfully, `"C"` is listed among `"A"`'s children, yet the `parent`
field of node `"C"` is `"B"`, not `"A"` — the claim's parent-equality is
violated on exactly the duplicate-referent documents it includes. -/
theorem C7_counterexample :
    parse b64none "place" docC7dup = .ok gdC7dup ∧
      (gdC7dup.instances "A").map PInst.children = some ["C"] ∧
      (gdC7dup.instances "C").map PInst.parent = some (some "B") ∧
      some "B" ≠ some "A" :=
  ⟨rfl, by decide, by decide, by decide⟩

/-- C7, amended: in the node map of a successful parse, (a) every child
id in any node's `children` list is a key of the map, for **every**
document; and (b) the referenced node's `parent` equals the containing
node's id provided each referent appears on at most one node-declaring
element (`allRefs doc` has no duplicates) — with duplicate referents the
parent field may point at a later claimant instead, as the
counterexample shows. -/
theorem C7_amended (b64 : String → Option String) (stem : String) (doc : List Item)
    (gd : PGameData) (hok : parse b64 stem doc = .ok gd) :
    (∀ r i c, gd.instances r = some i → c ∈ i.children → (gd.instances c).isSome = true) ∧
    ((allRefs doc).Nodup →
      ∀ r i c ci, gd.instances r = some i → c ∈ i.children → gd.instances c = some ci →
        ci.parent = some r) := by
  obtain ⟨st2, hp2, hinst, _, _⟩ := parse_ok_destruct b64 stem doc gd hok
  set st1 := pass1 (Item.postorderL doc) emptyPSt with hst1
  set keys : String → Bool := fun x => (st1.instances x).isSome with hkeys
  have hK1 : KeysEq st1 keys := fun x => rfl
  have hCC1 : ChildClosed st1 keys := by
    intro r i c hi hc
    rw [(pass1_empty_fields doc r i hi).1] at hc
    cases hc
  have hPC1 : ParentCons st1 := by
    intro r i c ci hi hc
    rw [(pass1_empty_fields doc r i hi).1] at hc
    cases hc
  have hNP1 : ∀ c, NotPlaced st1 c := by
    intro c r i hi
    rw [(pass1_empty_fields doc r i hi).1]
    simp
  constructor
  · have h := pass2_closed b64 keys (Item.preorderL doc) st1 st2 hp2 hK1 hCC1
    intro r i c hi hc
    rw [hinst] at hi ⊢
    rw [h.1 c]
    exact h.2 r i c hi hc
  · intro hnd
    have hB : ∀ c, keys c = true → appendsCount keys c (Item.preorderL doc) ≤ 1 := by
      intro c _
      exact le_trans (appendsCount_le_sum keys c (Item.preorderL doc))
        (nodup_childRefCount_le_one hnd c)
    have h := pass2_inv b64 keys (Item.preorderL doc) st1 st2 hp2 hK1 hPC1 hB
      (fun c _ _ => hNP1 c)
    intro r i c ci hi hc hci
    rw [hinst] at hi hci
    exact h.2 r i c ci hi hc hci

/-- Concrete well-formed document for the C7 witness. -/
def docC7W : List Item :=
  [.mk (some "A") (some "Model") [] [.mk (some "C") (some "Part") [] []]]

def gdC7W : PGameData :=
  match parse b64none "w" docC7W with
  | .ok gd => gd
  | .error _ => ⟨.str "", fun _ => none, [], []⟩

/-- C7, witness for the amended statement, at a concrete one-parent
one-child document with unique referents. -/
theorem C7_amended_witness :
    (allRefs docC7W).Nodup ∧
      (gdC7W.instances "C").isSome = true ∧
      (⟨"Part", "C", [], [], some "A"⟩ : PInst).parent = some "A" := by
  have hok : parse b64none "w" docC7W = .ok gdC7W := rfl
  have h := C7_amended b64none "w" docC7W gdC7W hok
  refine ⟨by decide, ?_, ?_⟩
  · exact h.1 "A" ⟨"Model", "A", [], ["C"], none⟩ "C" (by decide) (by decide)
  · exact h.2 (by decide) "A" ⟨"Model", "A", [], ["C"], none⟩ "C"
      ⟨"Part", "C", [], [], some "A"⟩ (by decide) (by decide) (by decide)

/-! ## C10 — children of skipped elements -/

mutual

def Item.deq : (a b : Item) → Decidable (a = b)
  | .mk r1 c1 p1 ch1, .mk r2 c2 p2 ch2 =>
    if h1 : r1 = r2 then
      if h2 : c1 = c2 then
        if h3 : p1 = p2 then
          match Item.deqList ch1 ch2 with
          | isTrue h4 => isTrue (by rw [h1, h2, h3, h4])
          | isFalse h4 => isFalse (by intro h; injection h; contradiction)
        else isFalse (by intro h; injection h; contradiction)
      else isFalse (by intro h; injection h; contradiction)
    else isFalse (by intro h; injection h; contradiction)

def Item.deqList : (a b : List Item) → Decidable (a = b)
  | [], [] => isTrue rfl
  | [], _ :: _ => isFalse (by intro h; cases h)
  | _ :: _, [] => isFalse (by intro h; cases h)
  | x :: xs, y :: ys =>
    match Item.deq x y, Item.deqList xs ys with
    | isTrue h1, isTrue h2 => isTrue (by rw [h1, h2])
    | isFalse h1, _ => isFalse (by intro h; injection h; contradiction)
    | _, isFalse h2 => isFalse (by intro h; injection h; contradiction)

end

instance : DecidableEq Item := Item.deq

/-- C10, counterexample document: element `E` (referent `E`, no class)
is skipped in pass 1, but its child element's referent `F` also appears
on a child of the registered element `A`, so node `F` is linked under
`A` instead of being promoted to a root. -/
def docC10x : List Item :=
  [.mk (some "A") (some "Model") [] [.mk (some "F") none [] []],
   .mk (some "E") none [] [.mk (some "F") (some "Part") [] []]]

def gdC10x : PGameData :=
  match parse b64none "place" docC10x with
  | .ok gd => gd
  | .error _ => ⟨.str "", fun _ => none, [], []⟩

/-- C10, counterexample: in `docC10x`, the element `E` lacks a class and
is skipped in pass 1, and its direct child carries both attributes
(referent `F`, class `Part`); yet after the parse node `F` has parent
`A`, sits in `A`'s children list, and is **not** in the root-id list —
so the claim fails as stated (another element with a child referent `F`
captured it). -/
theorem C10_counterexample :
    (Item.mk (some "E") none [] [Item.mk (some "F") (some "Part") [] []]) ∈
        Item.preorderL docC10x ∧
      (Item.mk (some "E") none [] [Item.mk (some "F") (some "Part") [] []] : Item).classAttr =
        none ∧
      (Item.mk (some "F") (some "Part") [] []) ∈
        (Item.mk (some "E") none [] [Item.mk (some "F") (some "Part") [] []] : Item).children ∧
      parse b64none "place" docC10x = .ok gdC10x ∧
      (gdC10x.instances "F").map PInst.parent = some (some "A") ∧
      (gdC10x.instances "A").map PInst.children = some ["F"] ∧
      "F" ∉ gdC10x.rootInstances :=
  ⟨by decide, rfl, by decide, rfl, by decide, by decide, by decide⟩

/-- C10, amended: for every node-declaring element skipped in pass 1 for
lacking an id or class attribute, each of its direct children carrying
both attributes ends the parse with `parent` unset, belongs to no
`children` list, and appears in the root-id list — **provided** each
referent appears on at most one node-declaring element of the document
(without that, another element with the same child referent can capture
the node, as the counterexample shows). -/
theorem C10_amended (b64 : String → Option String) (stem : String) (doc : List Item)
    (gd : PGameData) (hok : parse b64 stem doc = .ok gd)
    (hnd : (allRefs doc).Nodup)
    (E : Item) (hE : E ∈ Item.preorderL doc)
    (hEskip : E.referent = none ∨ E.classAttr = none)
    (F : Item) (hF : F ∈ E.children) (f cf : String)
    (hFr : F.referent = some f) (hFc : F.classAttr = some cf) :
    ∃ fi, gd.instances f = some fi ∧ fi.parent = none ∧
      (∀ r i, gd.instances r = some i → f ∉ i.children) ∧ f ∈ gd.rootInstances := by
  obtain ⟨st2, hp2, hinst, horder, hroots⟩ := parse_ok_destruct b64 stem doc gd hok
  set st1 := pass1 (Item.postorderL doc) emptyPSt with hst1
  set keys : String → Bool := fun x => (st1.instances x).isSome with hkeys
  have hFpre : F ∈ Item.preorderL doc := children_mem_preorderL doc E F hE hF
  have hFpost : F ∈ Item.postorderL doc := (mem_postorderL_iff doc F).mpr hFpre
  have hkf : keys f = true := by
    show (st1.instances f).isSome = true
    rw [hst1, pass1_isSome]
    have hany : (Item.postorderL doc).any
        (fun it => it.referent == some f && it.classAttr.isSome) = true :=
      List.any_eq_true.mpr ⟨F, hFpost, by rw [hFr, hFc]; simp⟩
    simp [emptyPSt, hany]
  have huniq : ∀ (x y : Item) (c : String), x ∈ Item.preorderL doc →
      y ∈ Item.preorderL doc → x.referent = some c → y.referent = some c → x = y := by
    intro x y c hx hy hxc hyc
    by_contra hne
    have h2 := two_mem_le_countP (fun it => it.referent = some c) hx hy hne
      (by simp [hxc]) (by simp [hyc])
    have h1 := nodup_countP_le_one hnd c
    omega
  have happ0 : appendsCount keys f (Item.preorderL doc) = 0 := by
    unfold appendsCount
    refine List.sum_eq_zero ?_
    intro n hn
    rw [List.mem_map] at hn
    obtain ⟨it, hit, hitv⟩ := hn
    subst hitv
    cases hir : it.referent with
    | none => simp [hir]
    | some r =>
      by_cases hkr : keys r = true
      · suffices hcc : childRefCount f it = 0 by simp [hir, hcc]
        by_contra hcc
        have hpos : 0 < childRefCount f it := Nat.pos_of_ne_zero hcc
        obtain ⟨ch, hch, hchf⟩ := List.countP_pos_iff.mp hpos
        have hchf' : ch.referent = some f := by simpa using hchf
        have hchpre : ch ∈ Item.preorderL doc := children_mem_preorderL doc it ch hit hch
        have hchF : ch = F := huniq ch F f hchpre hFpre hchf' hFr
        have hreg : (st1.instances r).isSome = true := hkr
        rw [hst1, pass1_isSome] at hreg
        simp only [emptyPSt, Option.isSome_none, Bool.false_or] at hreg
        obtain ⟨it', hit', hit'p⟩ := List.any_eq_true.mp hreg
        have hit'rc : it'.referent = some r ∧ it'.classAttr.isSome = true := by
          simpa using hit'p
        have hit'r : it'.referent = some r := hit'rc.1
        have hit'c : it'.classAttr.isSome = true := hit'rc.2
        have hit'pre : it' ∈ Item.preorderL doc := (mem_postorderL_iff doc it').mp hit'
        have hitit' : it' = it := huniq it' it r hit'pre hit hit'r hir
        have hEne : E ≠ it := by
          intro he
          rcases hEskip with hs | hs
          · rw [he, hir] at hs
            cases hs
          · rw [hitit', ← he, hs] at hit'c
            cases hit'c
        have hsum2 : childRefCount f E + childRefCount f it ≤
            ((Item.preorderL doc).map (fun it => childRefCount f it)).sum :=
          add_le_sum_of_two_mem _ hE hit hEne
        have hccE : 0 < childRefCount f E :=
          List.countP_pos_iff.mpr ⟨F, hF, by simp [hFr]⟩
        have hle1 := nodup_childRefCount_le_one hnd f
        omega
      · simp [hir, hkr]
  have hK1 : KeysEq st1 keys := fun x => rfl
  have hns := pass2_noSetter b64 keys f (Item.preorderL doc) st1 st2 hp2 hK1 happ0
  have hf1 : ∃ i1, st1.instances f = some i1 ∧ i1.children = [] ∧ i1.parent = none := by
    have hsome : (st1.instances f).isSome = true := hkf
    cases h1 : st1.instances f with
    | none => rw [h1] at hsome; cases hsome
    | some i1 => exact ⟨i1, rfl, pass1_empty_fields doc f i1 h1⟩
  obtain ⟨i1, hi1, hch1, hp1⟩ := hf1
  have hkf2 : (st2.instances f).isSome = true := by rw [hns.1 f]; exact hkf
  cases h2f : st2.instances f with
  | none => rw [h2f] at hkf2; cases hkf2
  | some fi =>
    have hparent : fi.parent = none := by
      have h := hns.2.1
      rw [h2f, hi1] at h
      simp only [Option.map_some', Option.some.injEq] at h
      rw [h, hp1]
    refine ⟨fi, by rw [hinst]; exact h2f, hparent, ?_, ?_⟩
    · have hNP1 : NotPlaced st1 f := by
        intro r i hi
        rw [(pass1_empty_fields doc r i hi).1]
        simp
      have hNP2 := hns.2.2.2 hNP1
      intro r i hi
      rw [hinst] at hi
      exact hNP2 r i hi
    · rw [hroots]
      unfold computeRoots
      rw [List.mem_filter]
      constructor
      · rw [pass2_order b64 _ st1 st2 hp2]
        have hbase : ∀ x, x ∈ emptyPSt.order ↔ (emptyPSt.instances x).isSome = true := by
          intro x
          simp [emptyPSt]
        exact (pass1_order_mem (Item.postorderL doc) emptyPSt hbase f).mpr hkf
      · have hcs : st2.childSet f = false := by
          rw [hns.2.2.1, hst1, pass1_childSet]
          rfl
        rw [hcs, h2f]
        simp [hparent]

/-- Concrete document for the C10 witness: a class-less element whose
child `F` carries both attributes, with unique referents. -/
def docC10W : List Item :=
  [.mk (some "A") (some "Model") [] [],
   .mk none (some "Folder") [] [.mk (some "F") (some "Part") [] []]]

def gdC10W : PGameData :=
  match parse b64none "w" docC10W with
  | .ok gd => gd
  | .error _ => ⟨.str "", fun _ => none, [], []⟩

/-- C10, witness for the amended statement, at `docC10W`. -/
theorem C10_amended_witness :
    (allRefs docC10W).Nodup ∧
      (∃ fi, gdC10W.instances "F" = some fi ∧ fi.parent = none ∧
        (∀ r i, gdC10W.instances r = some i → "F" ∉ i.children) ∧
        "F" ∈ gdC10W.rootInstances) := by
  have hok : parse b64none "w" docC10W = .ok gdC10W := rfl
  exact ⟨by decide,
    C10_amended b64none "w" docC10W gdC10W hok (by decide)
      (.mk none (some "Folder") [] [.mk (some "F") (some "Part") [] []]) (by decide)
      (Or.inl rfl)
      (.mk (some "F") (some "Part") [] []) (by decide) "F" "Part" rfl rfl⟩
